import Mathlib

/-!
# Verification of the `simple-config` reconciler

This file gives a shallow embedding of the configuration reconciler from
`src/config.ts` (the `part_000` variant has the same `loadConfig`,
`getValueFromPath` and `setValueFromPath` bodies; the two variants differ
only in their constructors, which are modelled separately with an explicit
heap at the end of the file).

JavaScript values that can occur in a configuration are modelled by
`JsVal`: JSON scalars, mappings (as ordered association lists, matching
object-key insertion order), arrays, plus `undef` for JavaScript's
`undefined` (the "not found" result of `getValueFromPath`).

Numbers are modelled as integers: the claims under verification only rely
on the distinction between `0` and other values, never on float semantics.

Mutation in the source (`this.config`, the `props` object) is modelled by
explicit state passing; a thrown exception (the `Arrays not supported`
error, and the strict-mode `TypeError` raised by assigning a property on a
primitive — the sources are ES modules, hence strict mode) is modelled with
`Except String`.
-/

inductive JsVal where
  | null
  | undef
  | bool (b : Bool)
  | num (n : Int)
  | str (s : String)
  | obj (kvs : List (String × JsVal))
  | arr (elems : List JsVal)
deriving Repr

/-- JavaScript truthiness (`!thing` in the source is `¬ truthy thing`):
`undefined`, `null`, `false`, `0` and `""` are falsy; every object and
array is truthy. -/
def truthy : JsVal → Bool
  | .null => false
  | .undef => false
  | .bool b => b
  | .num n => n != 0
  | .str s => s != ""
  | .obj _ => true
  | .arr _ => true

/-- `Array.isArray`. -/
def isArrV : JsVal → Bool
  | .arr _ => true
  | _ => false

def isObjV : JsVal → Bool
  | .obj _ => true
  | _ => false

def isUndef : JsVal → Bool
  | .undef => true
  | _ => false

/-- `typeof thing === 'object'`: true for mappings AND for `null`
(a well-known JavaScript quirk that matters below: a `null` leaf in the
default configuration is iterated like an empty mapping). -/
def typeofObject : JsVal → Bool
  | .obj _ => true
  | .null => true
  | _ => false

/-- The keys enumerated by `for (let key in thing)`: the own enumerable
keys of a mapping, in insertion order; nothing for any other value
(in particular `for … in null` performs no iterations). -/
def jsKeys : JsVal → List String
  | .obj kvs => kvs.map Prod.fst
  | _ => []

/-- Numeric value of a list of decimal digit characters. -/
def decVal (l : List Char) : Nat :=
  l.foldl (fun a c => a * 10 + (c.toNat - 48)) 0

/-- A string that is a canonical array index (`"0"`, `"17"`, …, i.e. the
decimal print of a natural number, hence nonempty, all digits, and with
no leading zero except for `"0"` itself): JavaScript array/string
indexing `a["3"]` behaves like element access exactly for such keys. -/
def canonIdx (k : String) : Option Nat :=
  let l := k.toList
  if l ≠ [] ∧ l.all (fun c => c.isDigit) ∧ (l = ['0'] ∨ l.headD '0' ≠ '0') then
    some (decVal l)
  else none

/-- Property read `thing[k]` for the values that can appear here.
Mappings: own-property lookup (first binding wins, matching JavaScript
objects whose keys are unique).  Arrays and strings additionally expose
`length` and canonical numeric indices.  Reading any property of a
number or boolean primitive used in a configuration yields `undefined`,
as does any other miss. -/
def propGet (thing : JsVal) (k : String) : JsVal :=
  match thing with
  | .obj kvs => (List.lookup k kvs).getD .undef
  | .arr es =>
      if k = "length" then .num es.length
      else
        match canonIdx k with
        | some i => es.getD i .undef
        | none => .undef
  | .str s =>
      if k = "length" then .num s.length
      else
        match canonIdx k with
        | some i =>
            match s.toList.get? i with
            | some c => .str (String.mk [c])
            | none => .undef
        | none => .undef
  | _ => (.undef)

/-- Property read `thing[k]` as an effectful step: in strict-mode
JavaScript, reading a property of `null` or `undefined` throws a
`TypeError`. -/
def propGetE (thing : JsVal) (k : String) : Except String JsVal :=
  match thing with
  | .null => .error "TypeError: cannot read properties of null"
  | .undef => .error "TypeError: cannot read properties of undefined"
  | _ => .ok (propGet thing k)

/-- Assignment `kvs[k] = v` on an association list: an existing binding
keeps its position (JavaScript objects keep the original insertion slot
when a key is overwritten); a new key is appended at the end. -/
def setKey : List (String × JsVal) → String → JsVal → List (String × JsVal)
  | [], k, v => [(k, v)]
  | (k1, v1) :: rest, k, v =>
      if k1 = k then (k1, v) :: rest else (k1, v1) :: setKey rest k v

/-- Array element write for `es[k] = v`: only canonical numeric indices
are JSON-observable (`JSON.stringify` ignores named array properties, and
writing past the end fills the gap with entries that stringify as
`null`). -/
def arrWrite (es : List JsVal) (k : String) (v : JsVal) : List JsVal :=
  match canonIdx k with
  | some i =>
      if i < es.length then es.set i v
      else es ++ List.replicate (i - es.length) .null ++ [v]
  | none => es

/-- Property assignment `thing[k] = v` in strict mode: succeeds on
mappings and arrays (which are mutable objects), throws a `TypeError` on
every primitive (`null`, `undefined`, booleans, numbers, strings). -/
def propSet (thing : JsVal) (k : String) (v : JsVal) : Except String JsVal :=
  match thing with
  | .obj kvs => .ok (.obj (setKey kvs k v))
  | .arr es => .ok (.arr (arrWrite es k v))
  | _ => .error "TypeError: cannot create property on primitive"

/-- `getValueFromPath` from `config.ts` (lines 93-98):

```js
private getValueFromPath(thing: any, path: string[]): any {
  if (!path.length) return thing;
  if (!thing) return undefined;
  const next = path.shift();
  return this.getValueFromPath(thing[next!], path);
}
```

The call sites always pass a fresh copy `[...path]`, so the destructive
`shift` is equivalent to this structural recursion. -/
def getValueFromPath (thing : JsVal) (path : List String) : JsVal :=
  match path with
  | [] => thing
  | next :: rest =>
      if truthy thing then getValueFromPath (propGet thing next) rest
      else (.undef)

/-- `setValueFromPath` from `config.ts` (lines 107-116):

```js
private setValueFromPath(thing: any, path: string[], setThing: any): void {
  if (!path.length) return;
  const next = path.shift();
  if (!path.length) { thing[next!] = setThing; return; }
  if (!thing[next!]) thing[next!] = {};
  return this.setValueFromPath(thing[next!], path, setThing);
}
```

In-place mutation of `thing` is rendered by rebuilding the updated value:
the recursion descends into `thing[next]` (vivifying a fresh `{}` over a
falsy occupant, exactly the `if (!thing[next])` test) and writes the
updated child back at `next`. -/
def setValueFromPath (thing : JsVal) (path : List String) (setThing : JsVal) :
    Except String JsVal :=
  match path with
  | [] => .ok thing
  | [next] => propSet thing next setThing
  | next :: rest =>
      match propGetE thing next with
      | .error e => .error e
      | .ok cur =>
          if truthy cur then
            match setValueFromPath cur rest setThing with
            | .error e => .error e
            | .ok child2 => propSet thing next child2
          else
            match propSet thing next (.obj []) with
            | .error e => .error e
            | .ok t1 =>
                match setValueFromPath (.obj []) rest setThing with
                | .error e => .error e
                | .ok child2 => propSet t1 next child2

/-- `loadConfig` from `config.ts` (lines 60-77):

```js
private loadConfig(propsValues: ConfigData, path: string[] = []): void {
  const thing = this.getValueFromPath(this.config, [...path]);
  if (Array.isArray(thing)) throw new Error('Arrays not supported in configuration');
  if (typeof thing === 'object') {
    for (let key in thing) {
      path.push(key);
      this.loadConfig(propsValues, [...path]);
      path.pop();
    }
  } else {
    let propValueThing = this.getValueFromPath(propsValues, [...path]);
    if (propValueThing === undefined) {
      this.setValueFromPath(propsValues, [...path], thing);
    } else {
      this.setValueFromPath(this.config, [...path], propValueThing);
    }
  }
}
```

(The two mutated objects `this.config` and `propsValues` are threaded as a
pair; a thrown error aborts through `Except`.)  The recursion of the
source terminates because the walk only ever revisits the shape of the
original defaults; since that argument is semantic, the embedding carries
an explicit `fuel` counter whose exhaustion yields the distinguished
`"out of fuel"` error — every theorem below is conditioned on an `.ok`
result, which fuel exhaustion can never produce. -/
def loadConfig : Nat → JsVal → JsVal → List String →
    Except String (JsVal × JsVal)
  | 0, _, _, _ => .error "out of fuel"
  | fuel + 1, config, props, path =>
      let thing := getValueFromPath config path
      if isArrV thing then .error "Arrays not supported in configuration"
      else if typeofObject thing then
        (jsKeys thing).foldlM
          (fun cp key => loadConfig fuel cp.1 cp.2 (path ++ [key]))
          (config, props)
      else
        let propValueThing := getValueFromPath props path
        if isUndef propValueThing then
          match setValueFromPath props path thing with
          | .error e => .error e
          | .ok props2 => .ok (config, props2)
        else
          match setValueFromPath config path propValueThing with
          | .error e => .error e
          | .ok config2 => .ok (config2, props)

/-- On-disk content of the configuration file: either the empty file
created by `init`'s existence check, or serialized JSON.  Byte-level
serialization is an external collaborator; `jsonOf v` stands for the
serialized form of `v`, and serialization is deterministic, so equal
values have byte-identical serializations. -/
inductive FileData where
  | emptyFile
  | jsonOf (v : JsVal)
deriving Repr

/-- `JSON.parse(confFileData.toString() || '{}')`: an empty file parses
to the empty mapping (the `|| '{}'` fallback); otherwise the file holds
the serialization of some value, which parses back to it. -/
def parseFile : FileData → JsVal
  | .emptyFile => .obj []
  | .jsonOf v => v

/-- The persisted structure `init` parses: a missing file is first
created empty, so it also parses to the empty mapping. -/
def readProps : Option FileData → JsVal
  | none => .obj []
  | some c => parseFile c

/-- `init` from `config.ts` (lines 25-43), for a single run on a fresh
instance (the `initialized` re-entry guard concerns a second call on the
same instance and is not involved in the claims below):

```js
public async init(): Promise<void> {
  if (this.initialized) return;
  if (!fs.existsSync(this.configPath)) { fs.writeFileSync(this.configPath, ''); }
  const confFileData = fs.readFileSync(this.configPath);
  let props = JSON.parse(confFileData.toString() || '{}');
  this.loadConfig(props);
  fs.writeFileSync(this.configPath, JSON.stringify(props, null, 2));
  this.initialized = true;
}
```

The file system state is `Option FileData` (`none` = the path does not
exist).  The result records the final `this.config` (or the thrown
error), the final file state, and how many `writeFileSync` calls ran. -/
def init (fuel : Nat) (defaultConfig : JsVal) (file : Option FileData) :
    Except String JsVal × Option FileData × Nat :=
  let ensured : Option FileData × Nat :=
    match file with
    | none => (some .emptyFile, 1)
    | some c => (some c, 0)
  let props : JsVal :=
    match ensured.1 with
    | some c => parseFile c
    | none => .obj []
  match loadConfig fuel defaultConfig props [] with
  | .error e => (.error e, ensured.1, ensured.2)
  | .ok (config2, props2) => (.ok config2, some (.jsonOf props2), ensured.2 + 1)

/-! ## Structural predicates on configuration values -/

mutual

/-- No sequence/array value occurs anywhere in the structure. -/
def noArrays : JsVal → Bool
  | .obj kvs => noArraysL kvs
  | .arr _ => false
  | _ => true

def noArraysL : List (String × JsVal) → Bool
  | [] => true
  | (_, v) :: rest => noArrays v && noArraysL rest

end

/-- Pairwise-distinct key list. -/
def nodupKeys : List String → Bool
  | [] => true
  | k :: ks => !ks.contains k && nodupKeys ks

mutual

/-- Every mapping in the structure has pairwise distinct keys — true of
every value that comes from an actual JavaScript object or from
`JSON.parse`, since object keys are unique. -/
def wfND : JsVal → Bool
  | .obj kvs => nodupKeys (kvs.map Prod.fst) && wfNDL kvs
  | _ => true

def wfNDL : List (String × JsVal) → Bool
  | [] => true
  | (_, v) :: rest => wfND v && wfNDL rest

end

mutual

/-- The value `undefined` occurs nowhere in the structure — true of every
JSON-parsed value and of every default structure in the spec's data model
(leaves are strings, numbers, booleans or null). -/
def noUndef : JsVal → Bool
  | .obj kvs => noUndefL kvs
  | .undef => false
  | _ => true

def noUndefL : List (String × JsVal) → Bool
  | [] => true
  | (_, v) :: rest => noUndef v && noUndefL rest

end

mutual

/-- The leaves visited by the reconciliation walk over a default
structure, with their relative key paths: mappings are recursed into,
`null` values are iterated like empty mappings (the `typeof null`
quirk) and hence contribute nothing, and every other value is a walk
leaf. -/
def dLeaves : JsVal → List (List String × JsVal)
  | .obj kvs => dLeavesL kvs
  | .null => []
  | v => [([], v)]

def dLeavesL : List (String × JsVal) → List (List String × JsVal)
  | [] => []
  | (k, v) :: rest =>
      (dLeaves v).map (fun pv => (k :: pv.1, pv.2)) ++ dLeavesL rest

end

mutual

/-- The key-path set of a structure: the relative paths of all its nodes
(the root, every mapping entry, and transitively the nodes of nested
mappings). -/
def nodePaths : JsVal → List (List String)
  | .obj kvs => [] :: nodePathsL kvs
  | _ => [[]]

def nodePathsL : List (String × JsVal) → List (List String)
  | [] => []
  | (k, v) :: rest => (nodePaths v).map (fun p => k :: p) ++ nodePathsL rest

end

/-- `pathLE p q` holds when the key path `p` is an initial segment of
`q` (so the location addressed by `q` lies inside the subtree addressed
by `p`). -/
def pathLE : List String → List String → Bool
  | [], _ => true
  | _ :: _, [] => false
  | a :: as, b :: bs => a = b && pathLE as bs

/-- The key path `π` is reachable in `t` without any vivification: every
strict initial segment of `π` addresses a mapping in `t`, and each step's
key is present in that mapping.  This is exactly the situation of the
walk positions of `loadConfig` inside `this.config`. -/
def chainKeys (t : JsVal) (π : List String) : Bool :=
  match π with
  | [] => true
  | k :: ρ =>
      match t with
      | .obj kvs =>
          match List.lookup k kvs with
          | some v => chainKeys v ρ
          | none => false
      | _ => false

/-- Replace the value addressed by `π` inside `t` (which must be
reachable, `chainKeys`-style, for the lemmas about this function to
apply); used to state what the in-place writes of the reconciler do to
`this.config`. -/
def updateSubtree (t : JsVal) (π : List String) (new : JsVal) : JsVal :=
  match π with
  | [] => new
  | k :: ρ =>
      match t with
      | .obj kvs => .obj (setKey kvs k (updateSubtree ((List.lookup k kvs).getD .undef) ρ new))
      | other => other

/-! ## Specification-level description of one reconciliation pass

`mergeAt` and `backfillAt` describe, by structural recursion on the
default structure, what `loadConfig` does to `this.config` and to the
persisted `props` respectively.  The theorem `loadConfig_spec` below
proves that a successful `loadConfig` run computes exactly these. -/

mutual

/-- The value of `this.config`'s subtree rooted at absolute path `π`
after the walk, given that the persisted structure reads as `props`:
mappings are merged entrywise, `null` is kept (the walk skips it), and at
every other leaf the persisted value wins when it is defined. -/
def mergeAt (d : JsVal) (props : JsVal) (π : List String) : JsVal :=
  match d with
  | .obj kvs => .obj (mergeAtL kvs props π)
  | .null => .null
  | v =>
      let pv := getValueFromPath props π
      if isUndef pv then v else pv

def mergeAtL (kvs : List (String × JsVal)) (props : JsVal) (π : List String) :
    List (String × JsVal) :=
  match kvs with
  | [] => []
  | (k, v) :: rest => (k, mergeAt v props (π ++ [k])) :: mergeAtL rest props π

end

mutual

/-- The persisted structure after the walk of the default subtree `d`
rooted at absolute path `π`: every walk leaf of `d` that is `undefined`
in the persisted structure is written into it (path-vivifying writes can
throw, hence `Except`). -/
def backfillAt (d : JsVal) (π : List String) (props : JsVal) :
    Except String JsVal :=
  match d with
  | .obj kvs => backfillAtL kvs π props
  | .null => .ok props
  | v =>
      if isUndef (getValueFromPath props π) then setValueFromPath props π v
      else .ok props

def backfillAtL (kvs : List (String × JsVal)) (π : List String) (props : JsVal) :
    Except String JsVal :=
  match kvs with
  | [] => .ok props
  | (k, v) :: rest =>
      match backfillAt v (π ++ [k]) props with
      | .error e => .error e
      | .ok props2 => backfillAtL rest π props2

end

/-! ## Heap-based embedding for the aliasing behavior of the constructors

The two source variants differ only in their constructors:

* `src/config.ts` line 17: `this.config = defaultConfig;` — the instance's
  working state *is* the caller's object;
* `src/unnamed/part_000` line 25:
  `this.config = Object.assign(Object.create(null), defaultConfig);` — a
  fresh top-level object sharing every nested sub-object with the caller.

Object identity cannot be observed in the stateless embedding above, so
this fragment re-renders the same functions over an explicit heap: a
mapping value is a reference into an allocation table, and in-place
mutation updates the table.  It is used only on the concrete
configurations of the aliasing claim; array/string index reads, which are
modelled precisely in the stateless embedding, cannot occur there and are
not repeated here. -/

inductive HVal where
  | null
  | undef
  | bool (b : Bool)
  | num (n : Int)
  | str (s : String)
  | arr (elems : List HVal)
  | ref (r : Nat)
deriving Repr

/-- Allocation table mapping references to mapping contents. -/
abbrev Heap : Type := List (Nat × List (String × HVal))

/-- Contents of the object behind reference `r`. -/
def hDeref (h : Heap) (r : Nat) : List (String × HVal) :=
  (List.lookup r h).getD []

/-- Overwrite the contents of the object behind reference `r`. -/
def hSetObj : Heap → Nat → List (String × HVal) → Heap
  | [], r, kvs => [(r, kvs)]
  | (r1, kvs1) :: rest, r, kvs =>
      if r1 = r then (r1, kvs) :: rest else (r1, kvs1) :: hSetObj rest r kvs

/-- Allocate a fresh empty object (`{}` / `Object.create(null)`). -/
def hAlloc (h : Heap) : Heap × Nat :=
  let r := (h.map Prod.fst).foldl max 0 + 1
  (h ++ [(r, [])], r)

def truthyH : HVal → Bool
  | .null => false
  | .undef => false
  | .bool b => b
  | .num n => n != 0
  | .str s => s != ""
  | .arr _ => true
  | .ref _ => true

def isArrH : HVal → Bool
  | .arr _ => true
  | _ => false

def typeofObjectH : HVal → Bool
  | .ref _ => true
  | .null => true
  | _ => false

def isUndefH : HVal → Bool
  | .undef => true
  | _ => false

def jsKeysH (h : Heap) : HVal → List String
  | .ref r => (hDeref h r).map Prod.fst
  | _ => []

/-- Heap-level property read `thing[k]`. -/
def propGetH (h : Heap) (thing : HVal) (k : String) : HVal :=
  match thing with
  | .ref r => (List.lookup k (hDeref h r)).getD .undef
  | _ => (.undef)

/-- Heap-level `getValueFromPath`. -/
def getValueFromPathH (h : Heap) (thing : HVal) (path : List String) : HVal :=
  match path with
  | [] => thing
  | next :: rest =>
      if truthyH thing then getValueFromPathH h (propGetH h thing next) rest
      else (.undef)

/-- `setKey` for heap values. -/
def setKeyH : List (String × HVal) → String → HVal → List (String × HVal)
  | [], k, v => [(k, v)]
  | (k1, v1) :: rest, k, v =>
      if k1 = k then (k1, v) :: rest else (k1, v1) :: setKeyH rest k v

/-- Heap-level property assignment `thing[k] = v`: mutates the object
behind the reference in place; throws on primitives (strict mode). -/
def propSetH (h : Heap) (thing : HVal) (k : String) (v : HVal) :
    Except String Heap :=
  match thing with
  | .ref r => .ok (hSetObj h r (setKeyH (hDeref h r) k v))
  | _ => .error "TypeError: cannot create property on primitive"

/-- Heap-level `setValueFromPath`: because descent follows references,
deep writes need no copy-back — they are visible through every alias of
the updated object, which is exactly what the aliasing claim is about. -/
def setValueFromPathH (h : Heap) (thing : HVal) (path : List String)
    (setThing : HVal) : Except String Heap :=
  match path with
  | [] => .ok h
  | [next] => propSetH h thing next setThing
  | next :: rest =>
      match thing with
      | .null => .error "TypeError: cannot read properties of null"
      | .undef => .error "TypeError: cannot read properties of undefined"
      | _ =>
          let cur := propGetH h thing next
          if truthyH cur then setValueFromPathH h cur rest setThing
          else
            let alloc := hAlloc h
            match propSetH alloc.1 thing next (.ref alloc.2) with
            | .error e => .error e
            | .ok h2 => setValueFromPathH h2 (.ref alloc.2) rest setThing

/-- Heap-level `loadConfig`: same structure as the stateless embedding,
threading the heap. -/
def loadConfigH : Nat → Heap → HVal → HVal → List String → Except String Heap
  | 0, _, _, _, _ => .error "out of fuel"
  | fuel + 1, h, config, props, path =>
      let thing := getValueFromPathH h config path
      if isArrH thing then .error "Arrays not supported in configuration"
      else if typeofObjectH thing then
        (jsKeysH h thing).foldlM
          (fun hh key => loadConfigH fuel hh config props (path ++ [key])) h
      else
        let propValueThing := getValueFromPathH h props path
        if isUndefH propValueThing then
          setValueFromPathH h props path thing
        else
          setValueFromPathH h config path propValueThing

/-- Constructor of the `src/config.ts` variant (line 17):
`this.config = defaultConfig;` — no copy at all, the instance aliases the
caller's object. -/
def constructorA (defaultConfig : HVal) : HVal := defaultConfig

/-- Constructor of the `part_000` variant (line 25):
`this.config = Object.assign(Object.create(null), defaultConfig);` — a
fresh object is allocated and the top-level entries are copied into it,
so nested sub-objects (references among the copied values) remain shared
with the caller's object. -/
def constructorB (h : Heap) (defaultConfig : HVal) : Heap × HVal :=
  let alloc := hAlloc h
  let entries :=
    match defaultConfig with
    | .ref r => hDeref h r
    | _ => []
  (hSetObj alloc.1 alloc.2 entries, .ref alloc.2)

/-! ## Path-order lemmas -/

theorem pathLE_nil (q : List String) : pathLE [] q = true := rfl

theorem pathLE_refl (p : List String) : pathLE p p = true := by
  induction p with
  | nil => rfl
  | cons a as ih => simp [pathLE, ih]

theorem pathLE_trans {a b c : List String} (h1 : pathLE a b = true)
    (h2 : pathLE b c = true) : pathLE a c = true := by
  induction a generalizing b c with
  | nil => rfl
  | cons x as ih =>
    cases b with
    | nil => simp [pathLE] at h1
    | cons y bs =>
      cases c with
      | nil => simp [pathLE] at h2
      | cons z cs =>
        simp only [pathLE, Bool.and_eq_true, decide_eq_true_eq] at h1 h2 ⊢
        exact ⟨h1.1.trans h2.1, ih h1.2 h2.2⟩

theorem pathLE_append (p s : List String) : pathLE p (p ++ s) = true := by
  induction p with
  | nil => rfl
  | cons a as ih => simp [pathLE, ih]

theorem pathLE_append_cancel {p a b : List String} :
    pathLE (p ++ a) (p ++ b) = pathLE a b := by
  induction p with
  | nil => rfl
  | cons x xs ih => simp [pathLE, ih]

theorem pathLE_comparable {a b c : List String} (h1 : pathLE a c = true)
    (h2 : pathLE b c = true) : pathLE a b = true ∨ pathLE b a = true := by
  induction c generalizing a b with
  | nil =>
    cases a with
    | nil => exact .inl rfl
    | cons x as => simp [pathLE] at h1
  | cons z cs ih =>
    cases a with
    | nil => exact .inl rfl
    | cons x as =>
      cases b with
      | nil => exact .inr rfl
      | cons y bs =>
        simp only [pathLE, Bool.and_eq_true, decide_eq_true_eq] at h1 h2
        rcases ih h1.2 h2.2 with h | h
        · exact .inl (by simp [pathLE, h1.1, h2.1, h])
        · exact .inr (by simp [pathLE, h1.1, h2.1, h])

theorem pathLE_extend_not {p q : List String} (k : String)
    (h : pathLE p q = false) : pathLE (p ++ [k]) q = false := by
  by_contra hc
  have hc' : pathLE (p ++ [k]) q = true := by
    cases h2 : pathLE (p ++ [k]) q
    · exact absurd h2 hc
    · rfl
  have := pathLE_trans (pathLE_append p [k]) hc'
  rw [this] at h
  exact Bool.noConfusion h

theorem pathLE_snoc_not {p q : List String} (k : String)
    (h1 : pathLE q p = false) (h2 : pathLE p q = false) :
    pathLE q (p ++ [k]) = false := by
  cases hq : pathLE q (p ++ [k])
  · rfl
  · rcases pathLE_comparable hq (pathLE_append p [k]) with h | h
    · rw [h1] at h; exact absurd h (by simp)
    · rw [h2] at h; exact absurd h (by simp)

theorem pathLE_sib_not {p : List String} {a b : String} (hne : a ≠ b)
    (q : List String) : pathLE (p ++ [a]) (p ++ b :: q) = false := by
  have : pathLE (p ++ [a]) (p ++ b :: q) = pathLE [a] (b :: q) :=
    pathLE_append_cancel
  rw [this]
  simp [pathLE, hne]

theorem pathLE_sib_snoc_not {p : List String} {a b : String} (hne : a ≠ b) :
    pathLE (p ++ [a]) (p ++ [b]) = false := pathLE_sib_not hne []


/-! ## Association-list and key lemmas -/

theorem sizeOf_mem_kvs {kvs : List (String × JsVal)} {k : String} {v : JsVal}
    (h : (k, v) ∈ kvs) : sizeOf v < sizeOf (JsVal.obj kvs) := by
  have h1 := List.sizeOf_lt_of_mem h
  simp only [Prod.mk.sizeOf_spec, JsVal.obj.sizeOf_spec] at *
  omega

theorem not_mem_of_contains_false {l : List String} {k : String}
    (h : l.contains k = false) : k ∉ l := by
  simp only [List.contains_eq_any_beq] at h
  intro hm
  simp only [List.any_eq_false] at h
  exact h k hm (by simp)

theorem lookup_setKey_self (kvs : List (String × JsVal)) (k : String) (v : JsVal) :
    List.lookup k (setKey kvs k v) = some v := by
  induction kvs with
  | nil => simp [setKey, List.lookup_cons]
  | cons h0 rest ih =>
    obtain ⟨k1, v1⟩ := h0
    by_cases hk : k1 = k
    · subst hk; simp [setKey, List.lookup_cons]
    · simp [setKey, hk, List.lookup_cons, ih, beq_false_of_ne (Ne.symm hk)]

theorem lookup_setKey_ne {k2 k : String} (hne : k2 ≠ k)
    (kvs : List (String × JsVal)) (v : JsVal) :
    List.lookup k2 (setKey kvs k v) = List.lookup k2 kvs := by
  induction kvs with
  | nil => simp [setKey, List.lookup_cons, beq_false_of_ne hne]
  | cons h0 rest ih =>
    obtain ⟨k1, v1⟩ := h0
    by_cases hk : k1 = k
    · subst hk
      simp [setKey, List.lookup_cons, beq_false_of_ne hne]
    · simp [setKey, hk, List.lookup_cons, ih]

theorem setKey_absorb (kvs : List (String × JsVal)) (k : String) (a b : JsVal) :
    setKey (setKey kvs k a) k b = setKey kvs k b := by
  induction kvs with
  | nil => simp [setKey]
  | cons h0 rest ih =>
    obtain ⟨k1, v1⟩ := h0
    by_cases hk : k1 = k
    · subst hk; simp [setKey]
    · simp [setKey, hk, ih]

theorem setKey_self {kvs : List (String × JsVal)} {k : String} {v : JsVal}
    (h : List.lookup k kvs = some v) : setKey kvs k v = kvs := by
  induction kvs with
  | nil => simp [List.lookup] at h
  | cons h0 rest ih =>
    obtain ⟨k1, v1⟩ := h0
    by_cases hk : k = k1
    · subst hk
      rw [List.lookup_cons] at h
      simp only [beq_self_eq_true, Option.some.injEq] at h
      simp [setKey, h]
    · rw [List.lookup_cons] at h
      simp only [beq_false_of_ne hk] at h
      simp [setKey, Ne.symm hk, ih h]

theorem keys_setKey_mem {kvs : List (String × JsVal)} {k : String}
    (h : k ∈ kvs.map Prod.fst) (v : JsVal) :
    (setKey kvs k v).map Prod.fst = kvs.map Prod.fst := by
  induction kvs with
  | nil => simp at h
  | cons h0 rest ih =>
    obtain ⟨k1, v1⟩ := h0
    by_cases hk : k1 = k
    · subst hk; simp [setKey]
    · simp only [List.map_cons, List.mem_cons] at h
      rcases h with h | h
      · exact absurd h.symm hk
      · simp [setKey, hk, ih h]

theorem setKey_append_left {l1 : List (String × JsVal)} {k : String}
    (h : k ∉ l1.map Prod.fst) (l2 : List (String × JsVal)) (v : JsVal) :
    setKey (l1 ++ l2) k v = l1 ++ setKey l2 k v := by
  induction l1 with
  | nil => rfl
  | cons h0 rest ih =>
    obtain ⟨k1, v1⟩ := h0
    simp only [List.map_cons, List.mem_cons] at h
    push_neg at h
    simp [setKey, Ne.symm h.1, ih h.2]

theorem lookup_append_left {l1 : List (String × JsVal)} {k : String}
    (h : k ∉ l1.map Prod.fst) (l2 : List (String × JsVal)) :
    List.lookup k (l1 ++ l2) = List.lookup k l2 := by
  induction l1 with
  | nil => rfl
  | cons h0 rest ih =>
    obtain ⟨k1, v1⟩ := h0
    simp only [List.map_cons, List.mem_cons] at h
    push_neg at h
    simp [List.lookup_cons, beq_false_of_ne h.1, ih h.2]

theorem nodupKeys_split {dk tk : List String} {k : String}
    (h : nodupKeys (dk ++ k :: tk) = true) : k ∉ dk ∧ k ∉ tk := by
  induction dk with
  | nil =>
    rw [List.nil_append, nodupKeys, Bool.and_eq_true] at h
    have h1 := h.1
    simp only [Bool.not_eq_true'] at h1
    exact ⟨by simp, not_mem_of_contains_false h1⟩
  | cons x dk2 ih =>
    rw [List.cons_append, nodupKeys, Bool.and_eq_true] at h
    have h2 := ih h.2
    have h1 := h.1
    simp only [Bool.not_eq_true'] at h1
    have hx : x ∉ dk2 ++ k :: tk := not_mem_of_contains_false h1
    refine ⟨?_, h2.2⟩
    intro hm
    rcases List.mem_cons.mp hm with heq | hm2
    · exact hx (heq ▸ List.mem_append_right dk2 (List.mem_cons_self k tk))
    · exact h2.1 hm2

theorem lookup_of_mem_nodup {kvs : List (String × JsVal)} {k : String} {v : JsVal}
    (hnd : nodupKeys (kvs.map Prod.fst) = true) (hm : (k, v) ∈ kvs) :
    List.lookup k kvs = some v := by
  induction kvs with
  | nil => simp at hm
  | cons h0 rest ih =>
    obtain ⟨k1, v1⟩ := h0
    rw [List.map_cons, nodupKeys, Bool.and_eq_true] at hnd
    rcases List.mem_cons.mp hm with heq | hm2
    · injection heq with e1 e2
      subst e1; subst e2
      simp [List.lookup_cons]
    · have hk1 : k ≠ k1 := by
        intro hk
        subst hk
        have h1 := hnd.1
        simp only [Bool.not_eq_true'] at h1
        exact not_mem_of_contains_false h1
          (List.mem_map.mpr ⟨(k, v), hm2, rfl⟩)
      simp [List.lookup_cons, beq_false_of_ne hk1, ih hnd.2 hm2]

/-! ## getValueFromPath and predicate lemmas -/

theorem getValueFromPath_undef (p : List String) :
    getValueFromPath .undef p = .undef := by
  cases p <;> rfl

theorem getValueFromPath_append (t : JsVal) (a b : List String) :
    getValueFromPath t (a ++ b) = getValueFromPath (getValueFromPath t a) b := by
  induction a generalizing t with
  | nil => rfl
  | cons x as ih =>
    simp only [List.cons_append, getValueFromPath]
    by_cases ht : truthy t = true
    · rw [if_pos ht, if_pos ht]; exact ih _
    · rw [if_neg ht, if_neg ht, getValueFromPath_undef]

theorem mem_of_lookup_eq_some {kvs : List (String × JsVal)} {k : String}
    {v : JsVal} (h : List.lookup k kvs = some v) : (k, v) ∈ kvs := by
  induction kvs with
  | nil => simp [List.lookup] at h
  | cons h0 rest ih =>
    obtain ⟨k1, v1⟩ := h0
    by_cases hk : k = k1
    · subst hk
      rw [List.lookup_cons] at h
      simp only [beq_self_eq_true, Option.some.injEq] at h
      exact List.mem_cons.mpr (.inl (by rw [h]))
    · rw [List.lookup_cons] at h
      simp only [beq_false_of_ne hk] at h
      exact List.mem_cons.mpr (.inr (ih h))

theorem noArraysL_mem {kvs : List (String × JsVal)} (h : noArraysL kvs = true)
    {k : String} {v : JsVal} (hm : (k, v) ∈ kvs) : noArrays v = true := by
  induction kvs with
  | nil => simp at hm
  | cons h0 rest ih =>
    obtain ⟨k1, v1⟩ := h0
    rw [noArraysL, Bool.and_eq_true] at h
    rcases List.mem_cons.mp hm with heq | hm2
    · injection heq with e1 e2; subst e2; exact h.1
    · exact ih h.2 hm2

theorem noUndefL_mem {kvs : List (String × JsVal)} (h : noUndefL kvs = true)
    {k : String} {v : JsVal} (hm : (k, v) ∈ kvs) : noUndef v = true := by
  induction kvs with
  | nil => simp at hm
  | cons h0 rest ih =>
    obtain ⟨k1, v1⟩ := h0
    rw [noUndefL, Bool.and_eq_true] at h
    rcases List.mem_cons.mp hm with heq | hm2
    · injection heq with e1 e2; subst e2; exact h.1
    · exact ih h.2 hm2

theorem wfNDL_mem {kvs : List (String × JsVal)} (h : wfNDL kvs = true)
    {k : String} {v : JsVal} (hm : (k, v) ∈ kvs) : wfND v = true := by
  induction kvs with
  | nil => simp at hm
  | cons h0 rest ih =>
    obtain ⟨k1, v1⟩ := h0
    rw [wfNDL, Bool.and_eq_true] at h
    rcases List.mem_cons.mp hm with heq | hm2
    · injection heq with e1 e2; subst e2; exact h.1
    · exact ih h.2 hm2

theorem noArrays_propGet {t : JsVal} (h : noArrays t = true) (k : String) :
    noArrays (propGet t k) = true := by
  cases t with
  | obj kvs =>
    rw [noArrays] at h
    rw [propGet]
    cases hl : List.lookup k kvs with
    | none => rfl
    | some v =>
      simpa using noArraysL_mem h (mem_of_lookup_eq_some hl)
  | arr es => rw [noArrays] at h; exact absurd h (by simp)
  | str s =>
    rw [propGet]
    by_cases hk : k = "length"
    · simp [hk, noArrays]
    · rw [if_neg hk]
      rcases hc : canonIdx k with _ | i
      · rfl
      · simp only []
        rcases hg : s.toList.get? i with _ | c <;> simp [hg, noArrays]
  | null => rfl
  | undef => rfl
  | bool b => rfl
  | num n => rfl

theorem noArrays_get {t : JsVal} (h : noArrays t = true) (p : List String) :
    noArrays (getValueFromPath t p) = true := by
  induction p generalizing t with
  | nil => exact h
  | cons x rest ih =>
    rw [getValueFromPath]
    by_cases ht : truthy t = true
    · rw [if_pos ht]; exact ih (noArrays_propGet h x)
    · rw [if_neg ht]; rfl

theorem isArrV_eq_false_of_noArrays {t : JsVal} (h : noArrays t = true) :
    isArrV t = false := by
  cases t with
  | arr es => rw [noArrays] at h; exact absurd h (by simp)
  | obj kvs => rfl
  | null => rfl
  | undef => rfl
  | bool b => rfl
  | num n => rfl
  | str s => rfl

theorem noArrays_of_leaf {t : JsVal} (htype : typeofObject t = false)
    (harr : isArrV t = false) : noArrays t = true := by
  cases t with
  | arr es => exact absurd harr (by simp [isArrV])
  | obj kvs => exact absurd htype (by simp [typeofObject])
  | null => rfl
  | undef => rfl
  | bool b => rfl
  | num n => rfl
  | str s => rfl

/-! ## chainKeys and updateSubtree lemmas -/

theorem getValueFromPath_obj_cons (kvs : List (String × JsVal)) (k : String)
    (ρ : List String) :
    getValueFromPath (.obj kvs) (k :: ρ) =
      getValueFromPath ((List.lookup k kvs).getD .undef) ρ := rfl

theorem get_updateSubtree_self {t : JsVal} {π : List String}
    (h : chainKeys t π = true) (new : JsVal) :
    getValueFromPath (updateSubtree t π new) π = new := by
  induction π generalizing t with
  | nil => rfl
  | cons k ρ ih =>
    cases t with
    | obj kvs =>
      rw [chainKeys] at h
      cases hl : List.lookup k kvs with
      | none => rw [hl] at h; exact absurd h (by simp)
      | some w =>
        rw [hl] at h
        simp only [updateSubtree, hl, Option.getD_some]
        rw [getValueFromPath_obj_cons, lookup_setKey_self, Option.getD_some]
        exact ih h
    | null => simp [chainKeys] at h
    | undef => simp [chainKeys] at h
    | bool b => simp [chainKeys] at h
    | num n => simp [chainKeys] at h
    | str s => simp [chainKeys] at h
    | arr es => simp [chainKeys] at h

theorem updateSubtree_frame {π q : List String} (h1 : pathLE π q = false)
    (h2 : pathLE q π = false) (t new : JsVal) :
    getValueFromPath (updateSubtree t π new) q = getValueFromPath t q := by
  induction π generalizing q t with
  | nil => exact absurd h1 (by simp [pathLE])
  | cons k ρ ih =>
    cases t with
    | obj kvs =>
      cases q with
      | nil => exact absurd h2 (by simp [pathLE])
      | cons kq qrest =>
        by_cases hk : kq = k
        · subst hk
          simp only [pathLE, decide_True, Bool.true_and] at h1 h2
          simp only [updateSubtree]
          rw [getValueFromPath_obj_cons, getValueFromPath_obj_cons,
            lookup_setKey_self, Option.getD_some]
          cases hl : List.lookup kq kvs with
          | none =>
            simp only [hl, Option.getD_none]
            cases ρ with
            | nil => exact absurd h1 (by simp [pathLE])
            | cons r1 rr =>
              rw [show updateSubtree JsVal.undef (r1 :: rr) new = .undef from rfl]
          | some w =>
            simp only [hl, Option.getD_some]
            exact ih h1 h2 w
        · simp only [updateSubtree]
          rw [getValueFromPath_obj_cons, getValueFromPath_obj_cons,
            lookup_setKey_ne hk]
    | null => rfl
    | undef => rfl
    | bool b => rfl
    | num n => rfl
    | str s => rfl
    | arr es => rfl

theorem updateSubtree_absorb (t : JsVal) (π : List String) (a b : JsVal) :
    updateSubtree (updateSubtree t π a) π b = updateSubtree t π b := by
  induction π generalizing t with
  | nil => rfl
  | cons k ρ ih =>
    cases t with
    | obj kvs =>
      simp only [updateSubtree, lookup_setKey_self, Option.getD_some,
        setKey_absorb, ih]
    | null => rfl
    | undef => rfl
    | bool b2 => rfl
    | num n => rfl
    | str s => rfl
    | arr es => rfl

theorem updateSubtree_self_id {t : JsVal} {π : List String}
    (h : chainKeys t π = true) :
    updateSubtree t π (getValueFromPath t π) = t := by
  induction π generalizing t with
  | nil => rfl
  | cons k ρ ih =>
    cases t with
    | obj kvs =>
      rw [chainKeys] at h
      cases hl : List.lookup k kvs with
      | none => rw [hl] at h; exact absurd h (by simp)
      | some w =>
        rw [hl] at h
        simp only [updateSubtree, hl, Option.getD_some]
        rw [getValueFromPath_obj_cons, hl, Option.getD_some, ih h,
          setKey_self hl]
    | null => simp [chainKeys] at h
    | undef => simp [chainKeys] at h
    | bool b => simp [chainKeys] at h
    | num n => simp [chainKeys] at h
    | str s => simp [chainKeys] at h
    | arr es => simp [chainKeys] at h

theorem chainKeys_updateSubtree {t : JsVal} {π r : List String}
    (h : chainKeys t π = true) (hr : pathLE r π = true → r = π)
    (new : JsVal) : chainKeys (updateSubtree t r new) π = true := by
  induction π generalizing t r with
  | nil => rfl
  | cons k ρ ih =>
    cases t with
    | obj kvs =>
      rw [chainKeys] at h
      cases hl : List.lookup k kvs with
      | none => rw [hl] at h; exact absurd h (by simp)
      | some w =>
        rw [hl] at h
        cases r with
        | nil => exact absurd (hr (by simp [pathLE])) (by simp)
        | cons kr rr =>
          by_cases hk : kr = k
          · subst hk
            simp only [updateSubtree, hl, Option.getD_some]
            rw [chainKeys, lookup_setKey_self]
            refine ih h ?_
            intro hle
            have h2 := hr (by simp [pathLE, hle])
            simp only [List.cons.injEq] at h2
            exact h2.2
          · simp only [updateSubtree]
            rw [chainKeys, lookup_setKey_ne (fun hh => hk hh.symm) , hl]
            exact h
    | null => simp [chainKeys] at h
    | undef => simp [chainKeys] at h
    | bool b => simp [chainKeys] at h
    | num n => simp [chainKeys] at h
    | str s => simp [chainKeys] at h
    | arr es => simp [chainKeys] at h

theorem chainKeys_snoc {t : JsVal} {π : List String} {k : String}
    {kvsπ : List (String × JsVal)}
    (h : chainKeys t π = true) (hg : getValueFromPath t π = .obj kvsπ)
    (hk : (List.lookup k kvsπ).isSome = true) :
    chainKeys t (π ++ [k]) = true := by
  induction π generalizing t with
  | nil =>
    have ht : t = .obj kvsπ := hg
    subst ht
    rw [List.nil_append]
    cases hl : List.lookup k kvsπ with
    | none => rw [hl] at hk; exact absurd hk (by simp)
    | some w => simp [chainKeys, hl]
  | cons k1 ρ ih =>
    cases t with
    | obj kvs =>
      rw [List.cons_append]
      rw [chainKeys] at h ⊢
      cases hl : List.lookup k1 kvs with
      | none => rw [hl] at h; exact absurd h (by simp)
      | some w =>
        rw [hl] at h
        have h2 : chainKeys w ρ = true := h
        show chainKeys w (ρ ++ [k]) = true
        rw [getValueFromPath_obj_cons, hl, Option.getD_some] at hg
        exact ih h2 hg
    | null => simp [chainKeys] at h
    | undef => simp [chainKeys] at h
    | bool b => simp [chainKeys] at h
    | num n => simp [chainKeys] at h
    | str s => simp [chainKeys] at h
    | arr es => simp [chainKeys] at h

theorem updateSubtree_snoc {t : JsVal} {π : List String}
    {kvsπ : List (String × JsVal)} (h : chainKeys t π = true)
    (hg : getValueFromPath t π = .obj kvsπ) (k : String) (x : JsVal) :
    updateSubtree t (π ++ [k]) x = updateSubtree t π (.obj (setKey kvsπ k x)) := by
  induction π generalizing t with
  | nil =>
    have ht : t = .obj kvsπ := hg
    subst ht
    rfl
  | cons k1 ρ ih =>
    cases t with
    | obj kvs =>
      rw [chainKeys] at h
      cases hl : List.lookup k1 kvs with
      | none => rw [hl] at h; exact absurd h (by simp)
      | some w =>
        rw [hl] at h
        rw [getValueFromPath_obj_cons, hl, Option.getD_some] at hg
        rw [List.cons_append]
        simp only [updateSubtree, hl, Option.getD_some]
        rw [ih h hg]
    | null => simp [chainKeys] at h
    | undef => simp [chainKeys] at h
    | bool b => simp [chainKeys] at h
    | num n => simp [chainKeys] at h
    | str s => simp [chainKeys] at h
    | arr es => simp [chainKeys] at h

/-! ## setValueFromPath lemmas -/

theorem setValueFromPath_single (t : JsVal) (k : String) (v : JsVal) :
    setValueFromPath t [k] v = propSet t k v := rfl

theorem setValueFromPath_cons (t : JsVal) (k k2 : String) (ρ : List String)
    (v : JsVal) :
    setValueFromPath t (k :: k2 :: ρ) v =
      match propGetE t k with
      | .error e => .error e
      | .ok cur =>
          if truthy cur then
            match setValueFromPath cur (k2 :: ρ) v with
            | .error e => .error e
            | .ok child2 => propSet t k child2
          else
            match propSet t k (.obj []) with
            | .error e => .error e
            | .ok t1 =>
                match setValueFromPath (.obj []) (k2 :: ρ) v with
                | .error e => .error e
                | .ok child2 => propSet t1 k child2 := rfl

theorem propGetE_obj (kvs : List (String × JsVal)) (k : String) :
    propGetE (.obj kvs) k = .ok ((List.lookup k kvs).getD .undef) := rfl

theorem prim_propGet_prim {t : JsVal} (h1 : isObjV t = false)
    (h2 : isArrV t = false) (k : String) :
    isObjV (propGet t k) = false ∧ isArrV (propGet t k) = false := by
  cases t with
  | obj kvs => exact absurd h1 (by simp [isObjV])
  | arr es => exact absurd h2 (by simp [isArrV])
  | str s =>
    rw [propGet]
    by_cases hk : k = "length"
    · simp [hk, isObjV, isArrV]
    · rw [if_neg hk]
      rcases hc : canonIdx k with _ | i
      · exact ⟨rfl, rfl⟩
      · simp only []
        rcases hg : s.toList.get? i with _ | c <;> simp [hg, isObjV, isArrV]
  | null => exact ⟨rfl, rfl⟩
  | undef => exact ⟨rfl, rfl⟩
  | bool b => exact ⟨rfl, rfl⟩
  | num n => exact ⟨rfl, rfl⟩

theorem setValueFromPath_prim {p : List String} :
    ∀ {t : JsVal} (v : JsVal), p ≠ [] → isObjV t = false → isArrV t = false →
      ∃ e, setValueFromPath t p v = .error e := by
  induction p with
  | nil => intro t v hne _ _; exact absurd rfl hne
  | cons k rest ih =>
    intro t v _ h1 h2
    cases rest with
    | nil =>
      rw [setValueFromPath_single]
      cases t with
      | obj kvs => exact absurd h1 (by simp [isObjV])
      | arr es => exact absurd h2 (by simp [isArrV])
      | null => exact ⟨_, rfl⟩
      | undef => exact ⟨_, rfl⟩
      | bool b => exact ⟨_, rfl⟩
      | num n => exact ⟨_, rfl⟩
      | str s => exact ⟨_, rfl⟩
    | cons k2 ρ =>
      rw [setValueFromPath_cons]
      cases t with
      | obj kvs => exact absurd h1 (by simp [isObjV])
      | arr es => exact absurd h2 (by simp [isArrV])
      | null => exact ⟨_, rfl⟩
      | undef => exact ⟨_, rfl⟩
      | bool b =>
        have hcur : propGet (.bool b) k = .undef := rfl
        simp only [propGetE, hcur]
        exact ⟨_, rfl⟩
      | num n =>
        have hcur : propGet (.num n) k = .undef := rfl
        simp only [propGetE, hcur]
        exact ⟨_, rfl⟩
      | str s =>
        simp only [propGetE]
        by_cases ht : truthy (propGet (.str s) k) = true
        · rw [if_pos ht]
          have hprim := prim_propGet_prim (t := .str s) rfl rfl k
          obtain ⟨e, he⟩ := ih v (by simp) hprim.1 hprim.2
          rw [he]
          exact ⟨e, rfl⟩
        · rw [if_neg ht]
          exact ⟨_, rfl⟩

theorem chainKeys_cons_obj {t : JsVal} {k : String} {ρ : List String}
    (h : chainKeys t (k :: ρ) = true) :
    ∃ kvs w, t = .obj kvs ∧ List.lookup k kvs = some w ∧ chainKeys w ρ = true := by
  cases t with
  | obj kvs =>
    rw [chainKeys] at h
    cases hl : List.lookup k kvs with
    | none => rw [hl] at h; exact absurd h (by simp)
    | some w =>
      rw [hl] at h
      exact ⟨kvs, w, rfl, hl, h⟩
  | null => simp [chainKeys] at h
  | undef => simp [chainKeys] at h
  | bool b => simp [chainKeys] at h
  | num n => simp [chainKeys] at h
  | str s => simp [chainKeys] at h
  | arr es => simp [chainKeys] at h

theorem setValueFromPath_chainKeys {π : List String} :
    ∀ {t : JsVal}, chainKeys t π = true → π ≠ [] → ∀ (v : JsVal),
      setValueFromPath t π v = .ok (updateSubtree t π v) := by
  induction π with
  | nil => intro t _ hne v; exact absurd rfl hne
  | cons k ρ ih =>
    intro t h _ v
    obtain ⟨kvs, w, rfl, hl, hck⟩ := chainKeys_cons_obj h
    cases ρ with
    | nil =>
      rw [setValueFromPath_single]
      simp [propSet, updateSubtree, hl]
    | cons k2 ρ2 =>
      rw [setValueFromPath_cons]
      obtain ⟨kvs2, w2, hw, hl2, hck2⟩ := chainKeys_cons_obj hck
      have hcur : propGetE (.obj kvs) k = .ok w := by
        simp [propGetE, propGet, hl]
      have htr : truthy w = true := by rw [hw]; rfl
      simp only [hcur, htr, if_true, ih hck (by simp) v]
      simp [propSet, updateSubtree, hl]

theorem noArrays_obj_elim {kvs : List (String × JsVal)}
    (h : noArrays (.obj kvs) = true) : noArraysL kvs = true := by
  rw [noArrays] at h; exact h

theorem setValueFromPath_ok_get {p : List String} :
    ∀ {t v t2 : JsVal}, noArrays t = true → p ≠ [] →
      setValueFromPath t p v = .ok t2 → getValueFromPath t2 p = v := by
  induction p with
  | nil => intro t v t2 _ hne _; exact absurd rfl hne
  | cons k rest ih =>
    intro t v t2 hA _ h
    cases t with
    | arr es => rw [noArrays] at hA; exact absurd hA (by simp)
    | null =>
      obtain ⟨e, he⟩ := setValueFromPath_prim (p := k :: rest) (t := .null) v (by simp) rfl rfl
      rw [he] at h; exact absurd h (by simp)
    | undef =>
      obtain ⟨e, he⟩ := setValueFromPath_prim (p := k :: rest) (t := .undef) v (by simp) rfl rfl
      rw [he] at h; exact absurd h (by simp)
    | bool b =>
      obtain ⟨e, he⟩ := setValueFromPath_prim (p := k :: rest) (t := .bool b) v (by simp) rfl rfl
      rw [he] at h; exact absurd h (by simp)
    | num n =>
      obtain ⟨e, he⟩ := setValueFromPath_prim (p := k :: rest) (t := .num n) v (by simp) rfl rfl
      rw [he] at h; exact absurd h (by simp)
    | str s =>
      obtain ⟨e, he⟩ := setValueFromPath_prim (p := k :: rest) (t := .str s) v (by simp) rfl rfl
      rw [he] at h; exact absurd h (by simp)
    | obj kvs =>
      cases rest with
      | nil =>
        rw [setValueFromPath_single] at h
        simp only [propSet, Except.ok.injEq] at h
        subst h
        rw [getValueFromPath_obj_cons, lookup_setKey_self, Option.getD_some]
        rfl
      | cons k2 ρ =>
        rw [setValueFromPath_cons] at h
        simp only [propGetE, propGet] at h
        cases hl : List.lookup k kvs with
        | some w =>
          rw [hl] at h
          simp only [Option.getD_some] at h
          by_cases htr : truthy w = true
          · rw [if_pos htr] at h
            cases hrec : setValueFromPath w (k2 :: ρ) v with
            | error e => rw [hrec] at h; exact absurd h (by simp)
            | ok c2 =>
              rw [hrec] at h
              simp only [propSet, Except.ok.injEq] at h
              subst h
              rw [getValueFromPath_obj_cons, lookup_setKey_self, Option.getD_some]
              exact ih (noArraysL_mem (noArrays_obj_elim hA)
                (mem_of_lookup_eq_some hl)) (by simp) hrec
          · rw [if_neg htr] at h
            simp only [propSet] at h
            cases hrec : setValueFromPath (.obj []) (k2 :: ρ) v with
            | error e => rw [hrec] at h; exact absurd h (by simp)
            | ok c2 =>
              rw [hrec] at h
              simp only [setKey_absorb, Except.ok.injEq] at h
              subst h
              rw [getValueFromPath_obj_cons, lookup_setKey_self, Option.getD_some]
              exact ih (t := .obj []) (by rfl) (by simp) hrec
        | none =>
          rw [hl] at h
          simp only [Option.getD_none] at h
          rw [if_neg (by simp [truthy])] at h
          simp only [propSet] at h
          cases hrec : setValueFromPath (.obj []) (k2 :: ρ) v with
          | error e => rw [hrec] at h; exact absurd h (by simp)
          | ok c2 =>
            rw [hrec] at h
            simp only [setKey_absorb, Except.ok.injEq] at h
            subst h
            rw [getValueFromPath_obj_cons, lookup_setKey_self, Option.getD_some]
            exact ih (t := .obj []) (by rfl) (by simp) hrec

theorem noArraysL_setKey {kvs : List (String × JsVal)} {v : JsVal}
    (hL : noArraysL kvs = true) (hv : noArrays v = true) (k : String) :
    noArraysL (setKey kvs k v) = true := by
  induction kvs with
  | nil => simp [setKey, noArraysL, hv]
  | cons h0 rest ih =>
    obtain ⟨k1, v1⟩ := h0
    rw [noArraysL, Bool.and_eq_true] at hL
    by_cases hk : k1 = k
    · subst hk
      simp [setKey, noArraysL, hv, hL.2]
    · simp [setKey, hk, noArraysL, hL.1, ih hL.2]

theorem setValueFromPath_noArrays {q : List String} :
    ∀ {t v t2 : JsVal}, noArrays t = true → noArrays v = true →
      setValueFromPath t q v = .ok t2 → noArrays t2 = true := by
  induction q with
  | nil =>
    intro t v t2 hA _ h
    rw [show setValueFromPath t [] v = .ok t from rfl] at h
    simp only [Except.ok.injEq] at h
    exact h ▸ hA
  | cons k rest ih =>
    intro t v t2 hA hv h
    cases t with
    | arr es => rw [noArrays] at hA; exact absurd hA (by simp)
    | null =>
      obtain ⟨e, he⟩ := setValueFromPath_prim (p := k :: rest) (t := .null) v (by simp) rfl rfl
      rw [he] at h; exact absurd h (by simp)
    | undef =>
      obtain ⟨e, he⟩ := setValueFromPath_prim (p := k :: rest) (t := .undef) v (by simp) rfl rfl
      rw [he] at h; exact absurd h (by simp)
    | bool b =>
      obtain ⟨e, he⟩ := setValueFromPath_prim (p := k :: rest) (t := .bool b) v (by simp) rfl rfl
      rw [he] at h; exact absurd h (by simp)
    | num n =>
      obtain ⟨e, he⟩ := setValueFromPath_prim (p := k :: rest) (t := .num n) v (by simp) rfl rfl
      rw [he] at h; exact absurd h (by simp)
    | str s =>
      obtain ⟨e, he⟩ := setValueFromPath_prim (p := k :: rest) (t := .str s) v (by simp) rfl rfl
      rw [he] at h; exact absurd h (by simp)
    | obj kvs =>
      cases rest with
      | nil =>
        rw [setValueFromPath_single] at h
        simp only [propSet, Except.ok.injEq] at h
        subst h
        rw [noArrays]
        exact noArraysL_setKey (noArrays_obj_elim hA) hv k
      | cons k2 ρ =>
        rw [setValueFromPath_cons] at h
        simp only [propGetE, propGet] at h
        cases hl : List.lookup k kvs with
        | some w =>
          rw [hl] at h
          simp only [Option.getD_some] at h
          by_cases htr : truthy w = true
          · rw [if_pos htr] at h
            cases hrec : setValueFromPath w (k2 :: ρ) v with
            | error e => rw [hrec] at h; exact absurd h (by simp)
            | ok c2 =>
              rw [hrec] at h
              simp only [propSet, Except.ok.injEq] at h
              subst h
              rw [noArrays]
              exact noArraysL_setKey (noArrays_obj_elim hA)
                (ih (noArraysL_mem (noArrays_obj_elim hA)
                  (mem_of_lookup_eq_some hl)) hv hrec) k
          · rw [if_neg htr] at h
            simp only [propSet] at h
            cases hrec : setValueFromPath (.obj []) (k2 :: ρ) v with
            | error e => rw [hrec] at h; exact absurd h (by simp)
            | ok c2 =>
              rw [hrec] at h
              simp only [setKey_absorb, Except.ok.injEq] at h
              subst h
              rw [noArrays]
              exact noArraysL_setKey (noArrays_obj_elim hA)
                (ih (t := .obj []) (by rfl) hv hrec) k
        | none =>
          rw [hl] at h
          simp only [Option.getD_none] at h
          rw [if_neg (by simp [truthy])] at h
          simp only [propSet] at h
          cases hrec : setValueFromPath (.obj []) (k2 :: ρ) v with
          | error e => rw [hrec] at h; exact absurd h (by simp)
          | ok c2 =>
            rw [hrec] at h
            simp only [setKey_absorb, Except.ok.injEq] at h
            subst h
            rw [noArrays]
            exact noArraysL_setKey (noArrays_obj_elim hA)
              (ih (t := .obj []) (by rfl) hv hrec) k

theorem setValueFromPath_frame {q : List String} :
    ∀ {t v t2 : JsVal} {p : List String}, noArrays t = true →
      pathLE p q = false → pathLE q p = false →
      setValueFromPath t q v = .ok t2 →
      getValueFromPath t2 p = getValueFromPath t p := by
  induction q with
  | nil =>
    intro t v t2 p _ _ _ h
    rw [show setValueFromPath t [] v = .ok t from rfl] at h
    simp only [Except.ok.injEq] at h
    rw [h]
  | cons k qrest ih =>
    intro t v t2 p hA h1 h2 h
    cases t with
    | arr es => rw [noArrays] at hA; exact absurd hA (by simp)
    | null =>
      obtain ⟨e, he⟩ := setValueFromPath_prim (p := k :: qrest) (t := .null) v (by simp) rfl rfl
      rw [he] at h; exact absurd h (by simp)
    | undef =>
      obtain ⟨e, he⟩ := setValueFromPath_prim (p := k :: qrest) (t := .undef) v (by simp) rfl rfl
      rw [he] at h; exact absurd h (by simp)
    | bool b =>
      obtain ⟨e, he⟩ := setValueFromPath_prim (p := k :: qrest) (t := .bool b) v (by simp) rfl rfl
      rw [he] at h; exact absurd h (by simp)
    | num n =>
      obtain ⟨e, he⟩ := setValueFromPath_prim (p := k :: qrest) (t := .num n) v (by simp) rfl rfl
      rw [he] at h; exact absurd h (by simp)
    | str s =>
      obtain ⟨e, he⟩ := setValueFromPath_prim (p := k :: qrest) (t := .str s) v (by simp) rfl rfl
      rw [he] at h; exact absurd h (by simp)
    | obj kvs =>
      -- extract the shape of t2 : in every successful branch it is
      -- obj (setKey kvs k c2) for some c2, with the original child cur
      -- and recursion target recorded
      cases p with
      | nil => exact absurd h1 (by simp [pathLE])
      | cons kp prest =>
        by_cases hk : kp = k
        · subst hk
          simp only [pathLE, decide_True, Bool.true_and] at h1 h2
          cases qrest with
          | nil => exact absurd h2 (by simp [pathLE])
          | cons k2 ρ =>
            rw [setValueFromPath_cons] at h
            simp only [propGetE, propGet] at h
            cases prest with
            | nil => simp [pathLE] at h1
            | cons kp2 prest2 =>
              cases hl : List.lookup kp kvs with
              | some w =>
                rw [hl] at h
                simp only [Option.getD_some] at h
                by_cases htr : truthy w = true
                · rw [if_pos htr] at h
                  cases hrec : setValueFromPath w (k2 :: ρ) v with
                  | error e => rw [hrec] at h; exact absurd h (by simp)
                  | ok c2 =>
                    rw [hrec] at h
                    simp only [propSet, Except.ok.injEq] at h
                    subst h
                    rw [getValueFromPath_obj_cons, lookup_setKey_self,
                      Option.getD_some, getValueFromPath_obj_cons, hl,
                      Option.getD_some]
                    exact ih (noArraysL_mem (noArrays_obj_elim hA)
                      (mem_of_lookup_eq_some hl)) h1 h2 hrec
                · rw [if_neg htr] at h
                  simp only [propSet] at h
                  cases hrec : setValueFromPath (.obj []) (k2 :: ρ) v with
                  | error e => rw [hrec] at h; exact absurd h (by simp)
                  | ok c2 =>
                    rw [hrec] at h
                    simp only [setKey_absorb, Except.ok.injEq] at h
                    subst h
                    rw [getValueFromPath_obj_cons, lookup_setKey_self,
                      Option.getD_some, getValueFromPath_obj_cons, hl,
                      Option.getD_some]
                    have hfr := ih (t := .obj []) (v := v)
                      (p := kp2 :: prest2) (by rfl) h1 h2 hrec
                    rw [hfr]
                    have hL : getValueFromPath (JsVal.obj [])
                        (kp2 :: prest2) = .undef := by
                      rw [getValueFromPath_obj_cons]
                      rw [show List.lookup kp2 ([] : List (String × JsVal)) = none from rfl]
                      rw [Option.getD_none, getValueFromPath_undef]
                    have hR : getValueFromPath w (kp2 :: prest2) = .undef := by
                      rw [getValueFromPath]
                      rw [if_neg htr]
                    rw [hL, hR]
              | none =>
                rw [hl] at h
                simp only [Option.getD_none] at h
                rw [if_neg (by simp [truthy])] at h
                simp only [propSet] at h
                cases hrec : setValueFromPath (.obj []) (k2 :: ρ) v with
                | error e => rw [hrec] at h; exact absurd h (by simp)
                | ok c2 =>
                  rw [hrec] at h
                  simp only [setKey_absorb, Except.ok.injEq] at h
                  subst h
                  rw [getValueFromPath_obj_cons, lookup_setKey_self,
                    Option.getD_some, getValueFromPath_obj_cons, hl,
                    Option.getD_none]
                  have hfr := ih (t := .obj []) (v := v)
                    (p := kp2 :: prest2) (by rfl) h1 h2 hrec
                  rw [hfr]
                  have hL : getValueFromPath (JsVal.obj [])
                      (kp2 :: prest2) = .undef := by
                    rw [getValueFromPath_obj_cons]
                    rw [show List.lookup kp2 ([] : List (String × JsVal)) = none from rfl]
                    rw [Option.getD_none, getValueFromPath_undef]
                  rw [hL, getValueFromPath_undef]
        · -- kp ≠ k : the write does not touch the binding at kp
          cases qrest with
          | nil =>
            rw [setValueFromPath_single] at h
            simp only [propSet, Except.ok.injEq] at h
            subst h
            rw [getValueFromPath_obj_cons, getValueFromPath_obj_cons,
              lookup_setKey_ne hk]
          | cons k2 ρ =>
            rw [setValueFromPath_cons] at h
            simp only [propGetE, propGet] at h
            cases hl : List.lookup k kvs with
            | some w =>
              rw [hl] at h
              simp only [Option.getD_some] at h
              by_cases htr : truthy w = true
              · rw [if_pos htr] at h
                cases hrec : setValueFromPath w (k2 :: ρ) v with
                | error e => rw [hrec] at h; exact absurd h (by simp)
                | ok c2 =>
                  rw [hrec] at h
                  simp only [propSet, Except.ok.injEq] at h
                  subst h
                  rw [getValueFromPath_obj_cons, getValueFromPath_obj_cons,
                    lookup_setKey_ne hk]
              · rw [if_neg htr] at h
                simp only [propSet] at h
                cases hrec : setValueFromPath (.obj []) (k2 :: ρ) v with
                | error e => rw [hrec] at h; exact absurd h (by simp)
                | ok c2 =>
                  rw [hrec] at h
                  simp only [setKey_absorb, Except.ok.injEq] at h
                  subst h
                  rw [getValueFromPath_obj_cons, getValueFromPath_obj_cons,
                    lookup_setKey_ne hk]
            | none =>
              rw [hl] at h
              simp only [Option.getD_none] at h
              rw [if_neg (by simp [truthy])] at h
              simp only [propSet] at h
              cases hrec : setValueFromPath (.obj []) (k2 :: ρ) v with
              | error e => rw [hrec] at h; exact absurd h (by simp)
              | ok c2 =>
                rw [hrec] at h
                simp only [setKey_absorb, Except.ok.injEq] at h
                subst h
                rw [getValueFromPath_obj_cons, getValueFromPath_obj_cons,
                  lookup_setKey_ne hk]

/-! ## mergeAt lemmas -/

theorem mergeAtL_append (l1 l2 : List (String × JsVal)) (props : JsVal)
    (π : List String) :
    mergeAtL (l1 ++ l2) props π = mergeAtL l1 props π ++ mergeAtL l2 props π := by
  induction l1 with
  | nil => rfl
  | cons h0 rest ih =>
    obtain ⟨k, v⟩ := h0
    rw [List.cons_append, mergeAtL, mergeAtL, ih, List.cons_append]

theorem keys_mergeAtL (kvs : List (String × JsVal)) (props : JsVal)
    (π : List String) :
    (mergeAtL kvs props π).map Prod.fst = kvs.map Prod.fst := by
  induction kvs with
  | nil => rfl
  | cons h0 rest ih =>
    obtain ⟨k, v⟩ := h0
    rw [mergeAtL, List.map_cons, List.map_cons, ih]

theorem lookup_mergeAtL (kvs : List (String × JsVal)) (props : JsVal)
    (π : List String) (k : String) :
    List.lookup k (mergeAtL kvs props π) =
      (List.lookup k kvs).map (fun v => mergeAt v props (π ++ [k])) := by
  induction kvs with
  | nil => rfl
  | cons h0 rest ih =>
    obtain ⟨k1, v1⟩ := h0
    by_cases hk : k = k1
    · subst hk
      rw [mergeAtL, List.lookup_cons, List.lookup_cons]
      simp
    · rw [mergeAtL, List.lookup_cons, List.lookup_cons]
      simp only [beq_false_of_ne hk]
      exact ih

theorem mergeAtL_congr {kvs : List (String × JsVal)} {p1 p2 : JsVal}
    {π : List String}
    (helem : ∀ k v, (k, v) ∈ kvs →
      mergeAt v p1 (π ++ [k]) = mergeAt v p2 (π ++ [k])) :
    mergeAtL kvs p1 π = mergeAtL kvs p2 π := by
  induction kvs with
  | nil => rfl
  | cons h0 rest ih =>
    obtain ⟨k, v⟩ := h0
    rw [mergeAtL, mergeAtL, helem k v (List.mem_cons_self _ _),
      ih (fun k2 v2 hm => helem k2 v2 (List.mem_cons_of_mem _ hm))]

theorem mergeAt_congr : ∀ (d : JsVal) {p1 p2 : JsVal} (π : List String),
    (∀ q, pathLE π q = true → getValueFromPath p1 q = getValueFromPath p2 q) →
    mergeAt d p1 π = mergeAt d p2 π
  | .obj kvs, p1, p2, π, hq => by
      rw [mergeAt, mergeAt]
      refine congrArg JsVal.obj (mergeAtL_congr ?_)
      intro k v hm
      exact mergeAt_congr v (π ++ [k])
        (fun q hle => hq q (pathLE_trans (pathLE_append π [k]) hle))
  | .null, p1, p2, π, hq => rfl
  | .undef, p1, p2, π, hq => by
      show (if isUndef (getValueFromPath p1 π) then JsVal.undef
          else getValueFromPath p1 π) =
        (if isUndef (getValueFromPath p2 π) then JsVal.undef
          else getValueFromPath p2 π)
      rw [hq π (pathLE_refl π)]
  | .bool b, p1, p2, π, hq => by
      show (if isUndef (getValueFromPath p1 π) then JsVal.bool b
          else getValueFromPath p1 π) =
        (if isUndef (getValueFromPath p2 π) then JsVal.bool b
          else getValueFromPath p2 π)
      rw [hq π (pathLE_refl π)]
  | .num n, p1, p2, π, hq => by
      show (if isUndef (getValueFromPath p1 π) then JsVal.num n
          else getValueFromPath p1 π) =
        (if isUndef (getValueFromPath p2 π) then JsVal.num n
          else getValueFromPath p2 π)
      rw [hq π (pathLE_refl π)]
  | .str s, p1, p2, π, hq => by
      show (if isUndef (getValueFromPath p1 π) then JsVal.str s
          else getValueFromPath p1 π) =
        (if isUndef (getValueFromPath p2 π) then JsVal.str s
          else getValueFromPath p2 π)
      rw [hq π (pathLE_refl π)]
  | .arr es, p1, p2, π, hq => by
      show (if isUndef (getValueFromPath p1 π) then JsVal.arr es
          else getValueFromPath p1 π) =
        (if isUndef (getValueFromPath p2 π) then JsVal.arr es
          else getValueFromPath p2 π)
      rw [hq π (pathLE_refl π)]
termination_by d => sizeOf d
decreasing_by exact sizeOf_mem_kvs hm

theorem mergeAt_obj (kvs : List (String × JsVal)) (props : JsVal)
    (π : List String) :
    mergeAt (.obj kvs) props π = .obj (mergeAtL kvs props π) := rfl

theorem mergeAt_leaf {d : JsVal} (h1 : isObjV d = false) (h2 : d ≠ .null)
    (props : JsVal) (π : List String) :
    mergeAt d props π =
      if isUndef (getValueFromPath props π) then d
      else getValueFromPath props π := by
  cases d with
  | obj kvs => exact absurd h1 (by simp [isObjV])
  | null => exact absurd rfl h2
  | undef => rfl
  | bool b => rfl
  | num n => rfl
  | str s => rfl
  | arr es => rfl

theorem dLeaves_leaf {d : JsVal} (h1 : isObjV d = false) (h2 : d ≠ .null) :
    dLeaves d = [([], d)] := by
  cases d with
  | obj kvs => exact absurd h1 (by simp [isObjV])
  | null => exact absurd rfl h2
  | undef => rfl
  | bool b => rfl
  | num n => rfl
  | str s => rfl
  | arr es => rfl

theorem backfillAt_obj (kvs : List (String × JsVal)) (π : List String)
    (props : JsVal) :
    backfillAt (.obj kvs) π props = backfillAtL kvs π props := rfl

theorem backfillAt_leaf {d : JsVal} (h1 : isObjV d = false) (h2 : d ≠ .null)
    (π : List String) (props : JsVal) :
    backfillAt d π props =
      if isUndef (getValueFromPath props π) then setValueFromPath props π d
      else .ok props := by
  cases d with
  | obj kvs => exact absurd h1 (by simp [isObjV])
  | null => exact absurd rfl h2
  | undef => rfl
  | bool b => rfl
  | num n => rfl
  | str s => rfl
  | arr es => rfl

theorem nodePaths_nonobj {t : JsVal} (h : isObjV t = false) :
    nodePaths t = [[]] := by
  cases t with
  | obj kvs => exact absurd h (by simp [isObjV])
  | null => rfl
  | undef => rfl
  | bool b => rfl
  | num n => rfl
  | str s => rfl
  | arr es => rfl

theorem mem_dLeavesL {kvs : List (String × JsVal)} {p : List String} {dv : JsVal} :
    (p, dv) ∈ dLeavesL kvs ↔
      ∃ k v ρ, p = k :: ρ ∧ (k, v) ∈ kvs ∧ (ρ, dv) ∈ dLeaves v := by
  induction kvs with
  | nil => simp [dLeavesL]
  | cons h0 rest ih =>
    obtain ⟨k0, v0⟩ := h0
    simp only [dLeavesL, List.mem_append, List.mem_map, ih]
    constructor
    · rintro (⟨⟨ρ0, dv0⟩, hm, heq⟩ | ⟨k, v, ρ, hp, hm, hd⟩)
      · injection heq with e1 e2
        exact ⟨k0, v0, ρ0, e1.symm, List.mem_cons_self _ _, e2 ▸ hm⟩
      · exact ⟨k, v, ρ, hp, List.mem_cons_of_mem _ hm, hd⟩
    · rintro ⟨k, v, ρ, hp, hm, hd⟩
      rcases List.mem_cons.mp hm with heq | hm2
      · injection heq with e1 e2
        subst e1
        exact .inl ⟨(ρ, dv), e2 ▸ hd, by simp [hp]⟩
      · exact .inr ⟨k, v, ρ, hp, hm2, hd⟩

theorem dLeaves_noUndef : ∀ (d : JsVal), noUndef d = true →
    ∀ ρ dv, (ρ, dv) ∈ dLeaves d → isUndef dv = false
  | .obj kvs, h, ρ, dv, hm => by
      rw [show dLeaves (.obj kvs) = dLeavesL kvs from rfl, mem_dLeavesL] at hm
      obtain ⟨k, v, ρ2, hp, hkv, hd⟩ := hm
      have hnu : noUndef v = true := noUndefL_mem (by rw [noUndef] at h; exact h) hkv
      exact dLeaves_noUndef v hnu ρ2 dv hd
  | .null, h, ρ, dv, hm => by simp [dLeaves] at hm
  | .undef, h, ρ, dv, hm => by simp [noUndef] at h
  | .bool b, h, ρ, dv, hm => by
      simp only [dLeaves, List.mem_singleton, Prod.mk.injEq] at hm
      obtain ⟨rfl, rfl⟩ := hm
      rfl
  | .num n, h, ρ, dv, hm => by
      simp only [dLeaves, List.mem_singleton, Prod.mk.injEq] at hm
      obtain ⟨rfl, rfl⟩ := hm
      rfl
  | .str s, h, ρ, dv, hm => by
      simp only [dLeaves, List.mem_singleton, Prod.mk.injEq] at hm
      obtain ⟨rfl, rfl⟩ := hm
      rfl
  | .arr es, h, ρ, dv, hm => by
      simp only [dLeaves, List.mem_singleton, Prod.mk.injEq] at hm
      obtain ⟨rfl, rfl⟩ := hm
      rfl
termination_by d => sizeOf d
decreasing_by exact sizeOf_mem_kvs hkv

theorem get_mergeAt : ∀ (d : JsVal) {props : JsVal} {π ρ : List String}
    {dv : JsVal}, wfND d = true → (ρ, dv) ∈ dLeaves d →
    getValueFromPath (mergeAt d props π) ρ =
      (if isUndef (getValueFromPath props (π ++ ρ)) then dv
       else getValueFromPath props (π ++ ρ))
  | .obj kvs, props, π, ρ, dv, hw, hm => by
      rw [show dLeaves (.obj kvs) = dLeavesL kvs from rfl, mem_dLeavesL] at hm
      obtain ⟨k, v, ρ2, rfl, hkv, hd⟩ := hm
      rw [wfND, Bool.and_eq_true] at hw
      have hl : List.lookup k kvs = some v := lookup_of_mem_nodup hw.1 hkv
      rw [mergeAt_obj, getValueFromPath_obj_cons, lookup_mergeAtL, hl]
      simp only [Option.map_some', Option.getD_some]
      rw [get_mergeAt v (wfNDL_mem hw.2 hkv) hd]
      rw [List.append_assoc, List.singleton_append]
  | .null, props, π, ρ, dv, hw, hm => by
      simp [dLeaves] at hm
  | .undef, props, π, ρ, dv, hw, hm => by
      simp only [dLeaves, List.mem_singleton, Prod.mk.injEq] at hm
      obtain ⟨rfl, rfl⟩ := hm
      rw [List.append_nil]
      rfl
  | .bool b, props, π, ρ, dv, hw, hm => by
      simp only [dLeaves, List.mem_singleton, Prod.mk.injEq] at hm
      obtain ⟨rfl, rfl⟩ := hm
      rw [List.append_nil]
      rfl
  | .num n, props, π, ρ, dv, hw, hm => by
      simp only [dLeaves, List.mem_singleton, Prod.mk.injEq] at hm
      obtain ⟨rfl, rfl⟩ := hm
      rw [List.append_nil]
      rfl
  | .str s, props, π, ρ, dv, hw, hm => by
      simp only [dLeaves, List.mem_singleton, Prod.mk.injEq] at hm
      obtain ⟨rfl, rfl⟩ := hm
      rw [List.append_nil]
      rfl
  | .arr es, props, π, ρ, dv, hw, hm => by
      simp only [dLeaves, List.mem_singleton, Prod.mk.injEq] at hm
      obtain ⟨rfl, rfl⟩ := hm
      rw [List.append_nil]
      rfl
termination_by d => sizeOf d
decreasing_by exact sizeOf_mem_kvs hkv

theorem nodePathsL_congr {kvs : List (String × JsVal)} {props : JsVal}
    {π : List String}
    (helem : ∀ k v, (k, v) ∈ kvs →
      nodePaths (mergeAt v props (π ++ [k])) = nodePaths v) :
    nodePathsL (mergeAtL kvs props π) = nodePathsL kvs := by
  induction kvs with
  | nil => rfl
  | cons h0 rest ih =>
    obtain ⟨k, v⟩ := h0
    rw [mergeAtL, nodePathsL, nodePathsL, helem k v (List.mem_cons_self _ _),
      ih (fun k2 v2 hm => helem k2 v2 (List.mem_cons_of_mem _ hm))]

theorem nodePaths_mergeAt : ∀ (d : JsVal) {props : JsVal} {π : List String},
    (∀ ρ dv, (ρ, dv) ∈ dLeaves d →
      isObjV (getValueFromPath props (π ++ ρ)) = false) →
    nodePaths (mergeAt d props π) = nodePaths d
  | .obj kvs, props, π, hleaf => by
      rw [mergeAt_obj]
      rw [show nodePaths (.obj (mergeAtL kvs props π)) =
        [] :: nodePathsL (mergeAtL kvs props π) from rfl]
      rw [show nodePaths (.obj kvs) = [] :: nodePathsL kvs from rfl]
      refine congrArg _ (nodePathsL_congr ?_)
      intro k v hm
      refine nodePaths_mergeAt v ?_
      intro ρ dv hd
      have hmem : (k :: ρ, dv) ∈ dLeaves (.obj kvs) := by
        rw [show dLeaves (.obj kvs) = dLeavesL kvs from rfl, mem_dLeavesL]
        exact ⟨k, v, ρ, rfl, hm, hd⟩
      have := hleaf (k :: ρ) dv hmem
      rwa [show π ++ k :: ρ = (π ++ [k]) ++ ρ by
        rw [List.append_assoc, List.singleton_append]] at this
  | .null, props, π, hleaf => rfl
  | .undef, props, π, hleaf => by
      rw [mergeAt_leaf (d := .undef) rfl (by simp)]
      by_cases hc : isUndef (getValueFromPath props π) = true
      · rw [if_pos hc]
      · rw [if_neg hc]
        rw [nodePaths_nonobj (by simpa using hleaf [] .undef (by simp [dLeaves])),
          nodePaths_nonobj (t := .undef) rfl]
  | .bool b, props, π, hleaf => by
      rw [mergeAt_leaf (d := .bool b) rfl (by simp)]
      by_cases hc : isUndef (getValueFromPath props π) = true
      · rw [if_pos hc]
      · rw [if_neg hc]
        rw [nodePaths_nonobj (by simpa using hleaf [] (.bool b) (by simp [dLeaves])),
          nodePaths_nonobj (t := .bool b) rfl]
  | .num n, props, π, hleaf => by
      rw [mergeAt_leaf (d := .num n) rfl (by simp)]
      by_cases hc : isUndef (getValueFromPath props π) = true
      · rw [if_pos hc]
      · rw [if_neg hc]
        rw [nodePaths_nonobj (by simpa using hleaf [] (.num n) (by simp [dLeaves])),
          nodePaths_nonobj (t := .num n) rfl]
  | .str s, props, π, hleaf => by
      rw [mergeAt_leaf (d := .str s) rfl (by simp)]
      by_cases hc : isUndef (getValueFromPath props π) = true
      · rw [if_pos hc]
      · rw [if_neg hc]
        rw [nodePaths_nonobj (by simpa using hleaf [] (.str s) (by simp [dLeaves])),
          nodePaths_nonobj (t := .str s) rfl]
  | .arr es, props, π, hleaf => by
      rw [mergeAt_leaf (d := .arr es) rfl (by simp)]
      by_cases hc : isUndef (getValueFromPath props π) = true
      · rw [if_pos hc]
      · rw [if_neg hc]
        rw [nodePaths_nonobj (by simpa using hleaf [] (.arr es) (by simp [dLeaves])),
          nodePaths_nonobj (t := .arr es) rfl]
termination_by d => sizeOf d
decreasing_by exact sizeOf_mem_kvs hm

/-! ## backfillAt lemmas -/

theorem backfillAtL_nil (π : List String) (props : JsVal) :
    backfillAtL [] π props = .ok props := rfl

theorem backfillAtL_cons (k : String) (v : JsVal)
    (tl : List (String × JsVal)) (π : List String) (props : JsVal) :
    backfillAtL ((k, v) :: tl) π props =
      match backfillAt v (π ++ [k]) props with
      | .error e => .error e
      | .ok props2 => backfillAtL tl π props2 := rfl

theorem backfillAtL_append (l1 l2 : List (String × JsVal)) (π : List String)
    (props : JsVal) :
    backfillAtL (l1 ++ l2) π props =
      match backfillAtL l1 π props with
      | .error e => .error e
      | .ok pm => backfillAtL l2 π pm := by
  induction l1 generalizing props with
  | nil => rfl
  | cons h0 rest ih =>
    obtain ⟨k, v⟩ := h0
    rw [List.cons_append, backfillAtL_cons, backfillAtL_cons]
    cases backfillAt v (π ++ [k]) props with
    | error e => rfl
    | ok pm => exact ih pm

theorem backfill_noArrays : ∀ (d : JsVal) {π : List String} {props p2 : JsVal},
    noArrays d = true → noArrays props = true →
    backfillAt d π props = .ok p2 → noArrays p2 = true
  | .obj kvs, π, props, p2, hAd, hAp, hb => by
      rw [backfillAt_obj] at hb
      rw [noArrays] at hAd
      have inner : ∀ (l : List (String × JsVal)), (∀ x ∈ l, x ∈ kvs) →
          ∀ props2 p3, noArrays props2 = true →
            backfillAtL l π props2 = .ok p3 → noArrays p3 = true := by
        intro l
        induction l with
        | nil =>
          intro _ props2 p3 hA2 hf
          rw [backfillAtL_nil] at hf
          simp only [Except.ok.injEq] at hf
          exact hf ▸ hA2
        | cons hd tl ih =>
          obtain ⟨k1, v1⟩ := hd
          intro hsub props2 p3 hA2 hf
          rw [backfillAtL_cons] at hf
          cases hstep : backfillAt v1 (π ++ [k1]) props2 with
          | error e => rw [hstep] at hf; exact absurd hf (by simp)
          | ok pm =>
            rw [hstep] at hf
            have hmem : (k1, v1) ∈ kvs := hsub _ (List.mem_cons_self _ _)
            have hApm := backfill_noArrays v1 (noArraysL_mem hAd hmem) hA2 hstep
            exact ih (fun x hx => hsub x (List.mem_cons_of_mem _ hx)) pm p3 hApm hf
      exact inner kvs (fun x hx => hx) props p2 hAp hb
  | .null, π, props, p2, hAd, hAp, hb => by
      rw [show backfillAt .null π props = .ok props from rfl] at hb
      simp only [Except.ok.injEq] at hb
      exact hb ▸ hAp
  | .undef, π, props, p2, hAd, hAp, hb => by
      rw [backfillAt_leaf (d := .undef) rfl (by simp)] at hb
      by_cases hc : isUndef (getValueFromPath props π) = true
      · rw [if_pos hc] at hb
        exact setValueFromPath_noArrays hAp (by rfl) hb
      · rw [if_neg hc] at hb
        simp only [Except.ok.injEq] at hb
        exact hb ▸ hAp
  | .bool b, π, props, p2, hAd, hAp, hb => by
      rw [backfillAt_leaf (d := .bool b) rfl (by simp)] at hb
      by_cases hc : isUndef (getValueFromPath props π) = true
      · rw [if_pos hc] at hb
        exact setValueFromPath_noArrays hAp (by rfl) hb
      · rw [if_neg hc] at hb
        simp only [Except.ok.injEq] at hb
        exact hb ▸ hAp
  | .num n, π, props, p2, hAd, hAp, hb => by
      rw [backfillAt_leaf (d := .num n) rfl (by simp)] at hb
      by_cases hc : isUndef (getValueFromPath props π) = true
      · rw [if_pos hc] at hb
        exact setValueFromPath_noArrays hAp (by rfl) hb
      · rw [if_neg hc] at hb
        simp only [Except.ok.injEq] at hb
        exact hb ▸ hAp
  | .str s, π, props, p2, hAd, hAp, hb => by
      rw [backfillAt_leaf (d := .str s) rfl (by simp)] at hb
      by_cases hc : isUndef (getValueFromPath props π) = true
      · rw [if_pos hc] at hb
        exact setValueFromPath_noArrays hAp (by rfl) hb
      · rw [if_neg hc] at hb
        simp only [Except.ok.injEq] at hb
        exact hb ▸ hAp
  | .arr es, π, props, p2, hAd, hAp, hb => by
      rw [noArrays] at hAd
      exact absurd hAd (by simp)
termination_by d => sizeOf d
decreasing_by exact sizeOf_mem_kvs hmem

theorem backfill_frame : ∀ (d : JsVal) {π : List String} {props p2 : JsVal}
    {q : List String}, noArrays d = true → noArrays props = true →
    backfillAt d π props = .ok p2 →
    pathLE π q = false → pathLE q π = false →
    getValueFromPath p2 q = getValueFromPath props q
  | .obj kvs, π, props, p2, q, hAd, hAp, hb, h1, h2 => by
      rw [backfillAt_obj] at hb
      rw [noArrays] at hAd
      have inner : ∀ (l : List (String × JsVal)), (∀ x ∈ l, x ∈ kvs) →
          ∀ props2 p3, noArrays props2 = true →
            backfillAtL l π props2 = .ok p3 →
            getValueFromPath p3 q = getValueFromPath props2 q := by
        intro l
        induction l with
        | nil =>
          intro _ props2 p3 _ hf
          rw [backfillAtL_nil] at hf
          simp only [Except.ok.injEq] at hf
          rw [hf]
        | cons hd tl ih =>
          obtain ⟨k1, v1⟩ := hd
          intro hsub props2 p3 hA2 hf
          rw [backfillAtL_cons] at hf
          cases hstep : backfillAt v1 (π ++ [k1]) props2 with
          | error e => rw [hstep] at hf; exact absurd hf (by simp)
          | ok pm =>
            rw [hstep] at hf
            have hmem : (k1, v1) ∈ kvs := hsub _ (List.mem_cons_self _ _)
            have hstepfr := backfill_frame v1 (noArraysL_mem hAd hmem) hA2 hstep
              (pathLE_extend_not k1 h1) (pathLE_snoc_not k1 h2 h1)
            have hApm := backfill_noArrays v1 (noArraysL_mem hAd hmem) hA2 hstep
            rw [ih (fun x hx => hsub x (List.mem_cons_of_mem _ hx)) pm p3 hApm hf,
              hstepfr]
      exact inner kvs (fun x hx => hx) props p2 hAp hb
  | .null, π, props, p2, q, hAd, hAp, hb, h1, h2 => by
      rw [show backfillAt .null π props = .ok props from rfl] at hb
      simp only [Except.ok.injEq] at hb
      rw [hb]
  | .undef, π, props, p2, q, hAd, hAp, hb, h1, h2 => by
      rw [backfillAt_leaf (d := .undef) rfl (by simp)] at hb
      by_cases hc : isUndef (getValueFromPath props π) = true
      · rw [if_pos hc] at hb
        exact setValueFromPath_frame hAp h2 h1 hb
      · rw [if_neg hc] at hb
        simp only [Except.ok.injEq] at hb
        rw [hb]
  | .bool b, π, props, p2, q, hAd, hAp, hb, h1, h2 => by
      rw [backfillAt_leaf (d := .bool b) rfl (by simp)] at hb
      by_cases hc : isUndef (getValueFromPath props π) = true
      · rw [if_pos hc] at hb
        exact setValueFromPath_frame hAp h2 h1 hb
      · rw [if_neg hc] at hb
        simp only [Except.ok.injEq] at hb
        rw [hb]
  | .num n, π, props, p2, q, hAd, hAp, hb, h1, h2 => by
      rw [backfillAt_leaf (d := .num n) rfl (by simp)] at hb
      by_cases hc : isUndef (getValueFromPath props π) = true
      · rw [if_pos hc] at hb
        exact setValueFromPath_frame hAp h2 h1 hb
      · rw [if_neg hc] at hb
        simp only [Except.ok.injEq] at hb
        rw [hb]
  | .str s, π, props, p2, q, hAd, hAp, hb, h1, h2 => by
      rw [backfillAt_leaf (d := .str s) rfl (by simp)] at hb
      by_cases hc : isUndef (getValueFromPath props π) = true
      · rw [if_pos hc] at hb
        exact setValueFromPath_frame hAp h2 h1 hb
      · rw [if_neg hc] at hb
        simp only [Except.ok.injEq] at hb
        rw [hb]
  | .arr es, π, props, p2, q, hAd, hAp, hb, h1, h2 => by
      rw [noArrays] at hAd
      exact absurd hAd (by simp)
termination_by d => sizeOf d
decreasing_by exact sizeOf_mem_kvs hmem

theorem backfill_frameL {kvs : List (String × JsVal)} {π : List String}
    {props p2 : JsVal} {q : List String}
    (hAd : noArraysL kvs = true) (hAp : noArrays props = true)
    (hb : backfillAtL kvs π props = .ok p2)
    (hq : ∀ k v, (k, v) ∈ kvs →
      pathLE (π ++ [k]) q = false ∧ pathLE q (π ++ [k]) = false) :
    getValueFromPath p2 q = getValueFromPath props q := by
  induction kvs generalizing props with
  | nil =>
    rw [backfillAtL_nil] at hb
    simp only [Except.ok.injEq] at hb
    rw [hb]
  | cons hd tl ih =>
    obtain ⟨k1, v1⟩ := hd
    rw [noArraysL, Bool.and_eq_true] at hAd
    rw [backfillAtL_cons] at hb
    cases hstep : backfillAt v1 (π ++ [k1]) props with
    | error e => rw [hstep] at hb; exact absurd hb (by simp)
    | ok pm =>
      rw [hstep] at hb
      have hq1 := hq k1 v1 (List.mem_cons_self _ _)
      have hstepfr := backfill_frame v1 hAd.1 hAp hstep hq1.1 hq1.2
      have hApm := backfill_noArrays v1 hAd.1 hAp hstep
      rw [ih hAd.2 hApm hb (fun k v hm => hq k v (List.mem_cons_of_mem _ hm)),
        hstepfr]

theorem pathLE_cons_sib_rev {a b : String} (hne : a ≠ b) (p ρ : List String) :
    pathLE (p ++ a :: ρ) (p ++ [b]) = false := by
  have h := pathLE_append_cancel (p := p) (a := a :: ρ) (b := [b])
  rw [h]
  simp [pathLE, hne]

theorem wfNDL_of_cons {k : String} {v : JsVal} {tl : List (String × JsVal)}
    (h : wfND (.obj ((k, v) :: tl)) = true) :
    wfND v = true ∧ wfND (.obj tl) = true ∧ k ∉ tl.map Prod.fst := by
  rw [wfND, Bool.and_eq_true] at h
  obtain ⟨hnd, hL⟩ := h
  rw [List.map_cons, nodupKeys, Bool.and_eq_true] at hnd
  rw [wfNDL, Bool.and_eq_true] at hL
  refine ⟨hL.1, ?_, ?_⟩
  · rw [wfND, Bool.and_eq_true]
    exact ⟨hnd.2, hL.2⟩
  · have h1 := hnd.1
    simp only [Bool.not_eq_true'] at h1
    exact not_mem_of_contains_false h1

theorem backfill_get : ∀ (d : JsVal) {π : List String} {props p2 : JsVal}
    {ρ : List String} {dv : JsVal},
    wfND d = true → noArrays d = true → noArrays props = true →
    (isObjV d = true ∨ π ≠ []) →
    backfillAt d π props = .ok p2 → (ρ, dv) ∈ dLeaves d →
    getValueFromPath p2 (π ++ ρ) =
      (if isUndef (getValueFromPath props (π ++ ρ)) then dv
       else getValueFromPath props (π ++ ρ))
  | .obj kvs, π, props, p2, ρ, dv, hw, hAd, hAp, _, hb, hm => by
      rw [backfillAt_obj] at hb
      rw [show dLeaves (.obj kvs) = dLeavesL kvs from rfl, mem_dLeavesL] at hm
      obtain ⟨k, v, ρ2, rfl, hkv, hd⟩ := hm
      rw [noArrays] at hAd
      rw [wfND, Bool.and_eq_true] at hw
      have inner : ∀ (l : List (String × JsVal)), (∀ x ∈ l, x ∈ kvs) →
          wfNDL l = true → nodupKeys (l.map Prod.fst) = true →
          noArraysL l = true →
          ∀ props2 p3, noArrays props2 = true →
            backfillAtL l π props2 = .ok p3 →
            ∀ k2 v2 ρ3 dv2, (k2, v2) ∈ l → (ρ3, dv2) ∈ dLeaves v2 →
            getValueFromPath p3 (π ++ k2 :: ρ3) =
              (if isUndef (getValueFromPath props2 (π ++ k2 :: ρ3)) then dv2
               else getValueFromPath props2 (π ++ k2 :: ρ3)) := by
        intro l
        induction l with
        | nil =>
          intro _ _ _ _ props2 p3 _ _ k2 v2 ρ3 dv2 hmem _
          simp at hmem
        | cons hd0 tl ih =>
          obtain ⟨k1, v1⟩ := hd0
          intro hsub hwl hnd hAl props2 p3 hA2 hf k2 v2 ρ3 dv2 hmem hd2
          rw [wfNDL, Bool.and_eq_true] at hwl
          rw [List.map_cons, nodupKeys, Bool.and_eq_true] at hnd
          rw [noArraysL, Bool.and_eq_true] at hAl
          have hk1tl : k1 ∉ tl.map Prod.fst := by
            have h1 := hnd.1
            simp only [Bool.not_eq_true'] at h1
            exact not_mem_of_contains_false h1
          rw [backfillAtL_cons] at hf
          cases hstep : backfillAt v1 (π ++ [k1]) props2 with
          | error e => rw [hstep] at hf; exact absurd hf (by simp)
          | ok pm =>
            rw [hstep] at hf
            have hApm := backfill_noArrays v1 hAl.1 hA2 hstep
            rcases List.mem_cons.mp hmem with heq | hm2
            · injection heq with e1 e2
              subst e1; subst e2
              have hsz : (k2, v2) ∈ kvs := hsub _ (List.mem_cons_self _ _)
              have hg := backfill_get v2 hwl.1 hAl.1 hA2
                (Or.inr (by simp)) hstep hd2
              rw [List.append_assoc, List.singleton_append] at hg
              have hqprf : ∀ k3 v3, (k3, v3) ∈ tl →
                  pathLE (π ++ [k3]) (π ++ k2 :: ρ3) = false ∧
                  pathLE (π ++ k2 :: ρ3) (π ++ [k3]) = false := by
                intro k3 v3 hm3
                have hne : k3 ≠ k2 := by
                  intro hk
                  exact hk1tl (hk ▸ List.mem_map.mpr ⟨(k3, v3), hm3, rfl⟩)
                exact ⟨pathLE_sib_not hne ρ3,
                  pathLE_cons_sib_rev (Ne.symm hne) π ρ3⟩
              have hfr := backfill_frameL (q := π ++ k2 :: ρ3) hAl.2 hApm hf hqprf
              rw [hfr, hg]
            · have hne : k2 ≠ k1 := by
                intro hk
                exact hk1tl (hk ▸ List.mem_map.mpr ⟨(k2, v2), hm2, rfl⟩)
              have hstepfr := backfill_frame v1 hAl.1 hA2 hstep
                (pathLE_sib_not (Ne.symm hne) ρ3)
                (pathLE_cons_sib_rev hne π ρ3)
              rw [ih (fun x hx => hsub x (List.mem_cons_of_mem _ hx)) hwl.2
                hnd.2 hAl.2 pm p3 hApm hf k2 v2 ρ3 dv2 hm2 hd2, hstepfr]
      exact inner kvs (fun x hx => hx) hw.2 hw.1 hAd props p2 hAp hb k v ρ2 dv
        hkv hd
  | .null, π, props, p2, ρ, dv, hw, hAd, hAp, hne, hb, hm => by
      simp [dLeaves] at hm
  | .undef, π, props, p2, ρ, dv, hw, hAd, hAp, hne, hb, hm => by
      simp only [dLeaves, List.mem_singleton, Prod.mk.injEq] at hm
      obtain ⟨rfl, rfl⟩ := hm
      rw [List.append_nil]
      have hπ : π ≠ [] := by
        rcases hne with hne | hne
        · exact absurd hne (by simp [isObjV])
        · exact hne
      rw [backfillAt_leaf (d := .undef) rfl (by simp)] at hb
      by_cases hc : isUndef (getValueFromPath props π) = true
      · rw [if_pos hc] at hb
        rw [if_pos hc]
        exact setValueFromPath_ok_get hAp hπ hb
      · rw [if_neg hc] at hb
        simp only [Except.ok.injEq] at hb
        rw [if_neg hc, hb]
  | .bool b, π, props, p2, ρ, dv, hw, hAd, hAp, hne, hb, hm => by
      simp only [dLeaves, List.mem_singleton, Prod.mk.injEq] at hm
      obtain ⟨rfl, rfl⟩ := hm
      rw [List.append_nil]
      have hπ : π ≠ [] := by
        rcases hne with hne | hne
        · exact absurd hne (by simp [isObjV])
        · exact hne
      rw [backfillAt_leaf (d := .bool b) rfl (by simp)] at hb
      by_cases hc : isUndef (getValueFromPath props π) = true
      · rw [if_pos hc] at hb
        rw [if_pos hc]
        exact setValueFromPath_ok_get hAp hπ hb
      · rw [if_neg hc] at hb
        simp only [Except.ok.injEq] at hb
        rw [if_neg hc, hb]
  | .num n, π, props, p2, ρ, dv, hw, hAd, hAp, hne, hb, hm => by
      simp only [dLeaves, List.mem_singleton, Prod.mk.injEq] at hm
      obtain ⟨rfl, rfl⟩ := hm
      rw [List.append_nil]
      have hπ : π ≠ [] := by
        rcases hne with hne | hne
        · exact absurd hne (by simp [isObjV])
        · exact hne
      rw [backfillAt_leaf (d := .num n) rfl (by simp)] at hb
      by_cases hc : isUndef (getValueFromPath props π) = true
      · rw [if_pos hc] at hb
        rw [if_pos hc]
        exact setValueFromPath_ok_get hAp hπ hb
      · rw [if_neg hc] at hb
        simp only [Except.ok.injEq] at hb
        rw [if_neg hc, hb]
  | .str s, π, props, p2, ρ, dv, hw, hAd, hAp, hne, hb, hm => by
      simp only [dLeaves, List.mem_singleton, Prod.mk.injEq] at hm
      obtain ⟨rfl, rfl⟩ := hm
      rw [List.append_nil]
      have hπ : π ≠ [] := by
        rcases hne with hne | hne
        · exact absurd hne (by simp [isObjV])
        · exact hne
      rw [backfillAt_leaf (d := .str s) rfl (by simp)] at hb
      by_cases hc : isUndef (getValueFromPath props π) = true
      · rw [if_pos hc] at hb
        rw [if_pos hc]
        exact setValueFromPath_ok_get hAp hπ hb
      · rw [if_neg hc] at hb
        simp only [Except.ok.injEq] at hb
        rw [if_neg hc, hb]
  | .arr es, π, props, p2, ρ, dv, hw, hAd, hAp, hne, hb, hm => by
      rw [noArrays] at hAd
      exact absurd hAd (by simp)
termination_by d => sizeOf d
decreasing_by exact sizeOf_mem_kvs hsz

theorem pathLE_sib_ext_not {k1 k3 : String} (hne : k3 ≠ k1) {π q : List String}
    (hle : pathLE (π ++ [k1]) q = true) :
    pathLE (π ++ [k3]) q = false ∧ pathLE q (π ++ [k3]) = false := by
  constructor
  · cases hq : pathLE (π ++ [k3]) q
    · rfl
    · rcases pathLE_comparable hq hle with h | h
      · rw [pathLE_append_cancel] at h
        simp [pathLE, hne] at h
      · rw [pathLE_append_cancel] at h
        simp [pathLE, Ne.symm hne] at h
  · cases hq : pathLE q (π ++ [k3])
    · rfl
    · have h := pathLE_trans hle hq
      rw [pathLE_append_cancel] at h
      simp [pathLE, Ne.symm hne] at h

theorem backfill_found_id : ∀ (d : JsVal) {π : List String} {props : JsVal},
    (∀ ρ dv, (ρ, dv) ∈ dLeaves d →
      isUndef (getValueFromPath props (π ++ ρ)) = false) →
    backfillAt d π props = .ok props
  | .obj kvs, π, props, hfound => by
      rw [backfillAt_obj]
      have inner : ∀ (l : List (String × JsVal)), (∀ x ∈ l, x ∈ kvs) →
          backfillAtL l π props = .ok props := by
        intro l
        induction l with
        | nil => intro _; rfl
        | cons hd0 tl ih =>
          obtain ⟨k1, v1⟩ := hd0
          intro hsub
          have hmem : (k1, v1) ∈ kvs := hsub _ (List.mem_cons_self _ _)
          have hstep : backfillAt v1 (π ++ [k1]) props = .ok props := by
            refine backfill_found_id v1 ?_
            intro ρ dv hd
            have hmem2 : (k1 :: ρ, dv) ∈ dLeaves (.obj kvs) := by
              rw [show dLeaves (.obj kvs) = dLeavesL kvs from rfl, mem_dLeavesL]
              exact ⟨k1, v1, ρ, rfl, hmem, hd⟩
            have := hfound (k1 :: ρ) dv hmem2
            rwa [show π ++ k1 :: ρ = (π ++ [k1]) ++ ρ by
              rw [List.append_assoc, List.singleton_append]] at this
          rw [backfillAtL_cons, hstep]
          exact ih (fun x hx => hsub x (List.mem_cons_of_mem _ hx))
      exact inner kvs (fun x hx => hx)
  | .null, π, props, hfound => rfl
  | .undef, π, props, hfound => by
      rw [backfillAt_leaf (d := .undef) rfl (by simp)]
      rw [if_neg (by simp [by simpa using hfound [] .undef (by simp [dLeaves])])]
  | .bool b, π, props, hfound => by
      rw [backfillAt_leaf (d := .bool b) rfl (by simp)]
      rw [if_neg (by simp [by simpa using hfound [] (.bool b) (by simp [dLeaves])])]
  | .num n, π, props, hfound => by
      rw [backfillAt_leaf (d := .num n) rfl (by simp)]
      rw [if_neg (by simp [by simpa using hfound [] (.num n) (by simp [dLeaves])])]
  | .str s, π, props, hfound => by
      rw [backfillAt_leaf (d := .str s) rfl (by simp)]
      rw [if_neg (by simp [by simpa using hfound [] (.str s) (by simp [dLeaves])])]
  | .arr es, π, props, hfound => by
      rw [backfillAt_leaf (d := .arr es) rfl (by simp)]
      rw [if_neg (by simp [by simpa using hfound [] (.arr es) (by simp [dLeaves])])]
termination_by d => sizeOf d
decreasing_by exact sizeOf_mem_kvs hmem

theorem mergeAt_after_backfill : ∀ (d : JsVal) {π : List String}
    {props p2 : JsVal},
    wfND d = true → noArrays d = true → noArrays props = true →
    (isObjV d = true ∨ π ≠ []) → backfillAt d π props = .ok p2 →
    mergeAt d p2 π = mergeAt d props π
  | .obj kvs, π, props, p2, hw, hAd, hAp, _, hb => by
      rw [backfillAt_obj] at hb
      rw [noArrays] at hAd
      rw [wfND, Bool.and_eq_true] at hw
      rw [mergeAt_obj, mergeAt_obj]
      have inner : ∀ (l : List (String × JsVal)), (∀ x ∈ l, x ∈ kvs) →
          wfNDL l = true → nodupKeys (l.map Prod.fst) = true →
          noArraysL l = true →
          ∀ props2 p3, noArrays props2 = true →
            backfillAtL l π props2 = .ok p3 →
            mergeAtL l p3 π = mergeAtL l props2 π := by
        intro l
        induction l with
        | nil => intro _ _ _ _ props2 p3 _ _; rfl
        | cons hd0 tl ih =>
          obtain ⟨k1, v1⟩ := hd0
          intro hsub hwl hnd hAl props2 p3 hA2 hf
          rw [wfNDL, Bool.and_eq_true] at hwl
          rw [List.map_cons, nodupKeys, Bool.and_eq_true] at hnd
          rw [noArraysL, Bool.and_eq_true] at hAl
          have hk1tl : k1 ∉ tl.map Prod.fst := by
            have h1 := hnd.1
            simp only [Bool.not_eq_true'] at h1
            exact not_mem_of_contains_false h1
          rw [backfillAtL_cons] at hf
          cases hstep : backfillAt v1 (π ++ [k1]) props2 with
          | error e => rw [hstep] at hf; exact absurd hf (by simp)
          | ok pm =>
            rw [hstep] at hf
            have hApm := backfill_noArrays v1 hAl.1 hA2 hstep
            have hmem : (k1, v1) ∈ kvs := hsub _ (List.mem_cons_self _ _)
            have hhead : mergeAt v1 p3 (π ++ [k1]) =
                mergeAt v1 props2 (π ++ [k1]) := by
              have hstep1 : mergeAt v1 p3 (π ++ [k1]) =
                  mergeAt v1 pm (π ++ [k1]) := by
                refine mergeAt_congr v1 (π ++ [k1]) ?_
                intro q hle
                refine backfill_frameL (q := q) hAl.2 hApm hf ?_
                intro k3 v3 hm3
                have hne : k3 ≠ k1 := by
                  intro hk
                  exact hk1tl (hk ▸ List.mem_map.mpr ⟨(k3, v3), hm3, rfl⟩)
                exact pathLE_sib_ext_not hne hle
              have hstep2 : mergeAt v1 pm (π ++ [k1]) =
                  mergeAt v1 props2 (π ++ [k1]) :=
                mergeAt_after_backfill v1 hwl.1 hAl.1 hA2 (Or.inr (by simp))
                  hstep
              exact hstep1.trans hstep2
            have htail : mergeAtL tl p3 π = mergeAtL tl props2 π := by
              have hstep1 : mergeAtL tl p3 π = mergeAtL tl pm π :=
                ih (fun x hx => hsub x (List.mem_cons_of_mem _ hx)) hwl.2
                  hnd.2 hAl.2 pm p3 hApm hf
              have hstep2 : mergeAtL tl pm π = mergeAtL tl props2 π := by
                refine mergeAtL_congr ?_
                intro k3 v3 hm3
                refine mergeAt_congr v3 (π ++ [k3]) ?_
                intro q hle
                have hne : k1 ≠ k3 := by
                  intro hk
                  exact hk1tl (hk ▸ List.mem_map.mpr ⟨(k3, v3), hm3, hk ▸ rfl⟩)
                have hinc := pathLE_sib_ext_not hne hle
                exact backfill_frame v1 hAl.1 hA2 hstep hinc.1 hinc.2
              exact hstep1.trans hstep2
            rw [mergeAtL, mergeAtL, hhead, htail]
      exact congrArg JsVal.obj
        (inner kvs (fun x hx => hx) hw.2 hw.1 hAd props p2 hAp hb)
  | .null, π, props, p2, hw, hAd, hAp, hne, hb => by
      rw [show backfillAt .null π props = .ok props from rfl] at hb
      simp only [Except.ok.injEq] at hb
      rw [hb]
  | .undef, π, props, p2, hw, hAd, hAp, hne, hb => by
      have hπ : π ≠ [] := by
        rcases hne with hne | hne
        · exact absurd hne (by simp [isObjV])
        · exact hne
      rw [backfillAt_leaf (d := .undef) rfl (by simp)] at hb
      by_cases hc : isUndef (getValueFromPath props π) = true
      · rw [if_pos hc] at hb
        rw [mergeAt_leaf (d := .undef) rfl (by simp),
          mergeAt_leaf (d := .undef) rfl (by simp),
          setValueFromPath_ok_get hAp hπ hb, if_pos hc]
        rw [if_pos (by rfl)]
      · rw [if_neg hc] at hb
        simp only [Except.ok.injEq] at hb
        rw [hb]
  | .bool b, π, props, p2, hw, hAd, hAp, hne, hb => by
      have hπ : π ≠ [] := by
        rcases hne with hne | hne
        · exact absurd hne (by simp [isObjV])
        · exact hne
      rw [backfillAt_leaf (d := .bool b) rfl (by simp)] at hb
      by_cases hc : isUndef (getValueFromPath props π) = true
      · rw [if_pos hc] at hb
        rw [mergeAt_leaf (d := .bool b) rfl (by simp),
          mergeAt_leaf (d := .bool b) rfl (by simp),
          setValueFromPath_ok_get hAp hπ hb, if_pos hc]
        rw [if_neg (by simp [isUndef])]
      · rw [if_neg hc] at hb
        simp only [Except.ok.injEq] at hb
        rw [hb]
  | .num n, π, props, p2, hw, hAd, hAp, hne, hb => by
      have hπ : π ≠ [] := by
        rcases hne with hne | hne
        · exact absurd hne (by simp [isObjV])
        · exact hne
      rw [backfillAt_leaf (d := .num n) rfl (by simp)] at hb
      by_cases hc : isUndef (getValueFromPath props π) = true
      · rw [if_pos hc] at hb
        rw [mergeAt_leaf (d := .num n) rfl (by simp),
          mergeAt_leaf (d := .num n) rfl (by simp),
          setValueFromPath_ok_get hAp hπ hb, if_pos hc]
        rw [if_neg (by simp [isUndef])]
      · rw [if_neg hc] at hb
        simp only [Except.ok.injEq] at hb
        rw [hb]
  | .str s, π, props, p2, hw, hAd, hAp, hne, hb => by
      have hπ : π ≠ [] := by
        rcases hne with hne | hne
        · exact absurd hne (by simp [isObjV])
        · exact hne
      rw [backfillAt_leaf (d := .str s) rfl (by simp)] at hb
      by_cases hc : isUndef (getValueFromPath props π) = true
      · rw [if_pos hc] at hb
        rw [mergeAt_leaf (d := .str s) rfl (by simp),
          mergeAt_leaf (d := .str s) rfl (by simp),
          setValueFromPath_ok_get hAp hπ hb, if_pos hc]
        rw [if_neg (by simp [isUndef])]
      · rw [if_neg hc] at hb
        simp only [Except.ok.injEq] at hb
        rw [hb]
  | .arr es, π, props, p2, hw, hAd, hAp, hne, hb => by
      rw [noArrays] at hAd
      exact absurd hAd (by simp)
termination_by d => sizeOf d
decreasing_by exact sizeOf_mem_kvs hmem

/-! ## Unfolding lemmas for one step of loadConfig -/

theorem loadConfig_succ_obj {config : JsVal} {π : List String}
    {kvs : List (String × JsVal)}
    (hthing : getValueFromPath config π = .obj kvs) (fuel : Nat)
    (props : JsVal) :
    loadConfig (fuel + 1) config props π =
      (kvs.map Prod.fst).foldlM
        (fun cp key => loadConfig fuel cp.1 cp.2 (π ++ [key]))
        (config, props) := by
  simp [loadConfig, hthing, isArrV, typeofObject, jsKeys]

theorem loadConfig_succ_null {config : JsVal} {π : List String}
    (hthing : getValueFromPath config π = .null) (fuel : Nat) (props : JsVal) :
    loadConfig (fuel + 1) config props π = .ok (config, props) := by
  simp [loadConfig, hthing, isArrV, typeofObject, jsKeys]
  rfl

theorem loadConfig_succ_arr {config : JsVal} {π : List String}
    {es : List JsVal} (hthing : getValueFromPath config π = .arr es)
    (fuel : Nat) (props : JsVal) :
    loadConfig (fuel + 1) config props π =
      .error "Arrays not supported in configuration" := by
  simp [loadConfig, hthing, isArrV]

theorem loadConfig_succ_leaf {config : JsVal} {π : List String}
    (htype : typeofObject (getValueFromPath config π) = false)
    (harr : isArrV (getValueFromPath config π) = false)
    (fuel : Nat) (props : JsVal) :
    loadConfig (fuel + 1) config props π =
      (if isUndef (getValueFromPath props π) then
        match setValueFromPath props π (getValueFromPath config π) with
        | .error e => .error e
        | .ok props2 => .ok (config, props2)
      else
        match setValueFromPath config π (getValueFromPath props π) with
        | .error e => .error e
        | .ok config2 => .ok (config2, props)) := by
  rw [loadConfig]
  simp only [harr, htype, Bool.false_eq_true, if_false]

/-- Specification of one successful reconciliation walk: starting from
`config` at position `π`, a successful `loadConfig` run leaves
`this.config` equal to `config` with the subtree at `π` replaced by the
entrywise merge with the persisted values, and leaves the persisted
structure exactly as `backfillAt` describes; moreover the persisted
structure is only modified below `π`. -/
theorem loadConfig_spec : ∀ (fuel : Nat) (config props : JsVal)
    (π : List String) (c2 p2 : JsVal),
    loadConfig fuel config props π = .ok (c2, p2) →
    noArrays props = true →
    wfND (getValueFromPath config π) = true →
    chainKeys config π = true →
    (π = [] → typeofObject (getValueFromPath config π) = true) →
    c2 = updateSubtree config π
        (mergeAt (getValueFromPath config π) props π) ∧
    backfillAt (getValueFromPath config π) π props = .ok p2 ∧
    noArrays p2 = true ∧
    (∀ q, pathLE π q = false → pathLE q π = false →
      getValueFromPath p2 q = getValueFromPath props q) := by
  intro fuel
  induction fuel with
  | zero =>
    intro config props π c2 p2 h
    rw [show loadConfig 0 config props π = .error "out of fuel" from rfl] at h
    exact absurd h (by simp)
  | succ fuel ih =>
    intro config props π c2 p2 h hAp hwf hck hroot
    cases hthing : getValueFromPath config π with
    | arr es =>
      rw [loadConfig_succ_arr hthing] at h
      exact absurd h (by simp)
    | null =>
      rw [loadConfig_succ_null hthing] at h
      simp only [Except.ok.injEq, Prod.mk.injEq] at h
      obtain ⟨rfl, rfl⟩ := h
      refine ⟨?_, rfl, hAp, fun q _ _ => rfl⟩
      have := updateSubtree_self_id (t := config) (π := π) hck
      rw [hthing] at this
      rw [show mergeAt .null props π = .null from rfl, this]
    | obj kvs =>
      rw [loadConfig_succ_obj hthing] at h
      rw [hthing] at hwf
      rw [wfND, Bool.and_eq_true] at hwf
      have hckup : ∀ (x : JsVal), chainKeys (updateSubtree config π x) π = true :=
        fun x => chainKeys_updateSubtree hck (fun _ => rfl) x
      have inner : ∀ (l done : List (String × JsVal)) (ci pi : JsVal),
          kvs = done ++ l →
          ci = updateSubtree config π (.obj (mergeAtL done props π ++ l)) →
          backfillAtL done π props = .ok pi →
          noArrays pi = true →
          (∀ q kp vp, (kp, vp) ∈ l → pathLE (π ++ [kp]) q = true →
            getValueFromPath pi q = getValueFromPath props q) →
          (∀ q, pathLE π q = false → pathLE q π = false →
            getValueFromPath pi q = getValueFromPath props q) →
          (l.map Prod.fst).foldlM
            (fun cp key => loadConfig fuel cp.1 cp.2 (π ++ [key]))
            (ci, pi) = .ok (c2, p2) →
          c2 = updateSubtree config π
              (.obj (mergeAtL (done ++ l) props π)) ∧
          backfillAtL (done ++ l) π props = .ok p2 ∧
          noArrays p2 = true ∧
          (∀ q, pathLE π q = false → pathLE q π = false →
            getValueFromPath p2 q = getValueFromPath props q) := by
        intro l
        induction l with
        | nil =>
          intro done ci pi hkvs hci hbf hApi _ hinc hfold
          rw [show (([] : List (String × JsVal)).map Prod.fst).foldlM
            (fun cp key => loadConfig fuel cp.1 cp.2 (π ++ [key]))
            (ci, pi) = .ok (ci, pi) from rfl] at hfold
          simp only [Except.ok.injEq, Prod.mk.injEq] at hfold
          obtain ⟨rfl, rfl⟩ := hfold
          rw [List.append_nil] at hkvs ⊢
          rw [List.append_nil] at hci
          exact ⟨hci, hbf, hApi, hinc⟩
        | cons hd0 l2 ihl =>
          obtain ⟨k, v⟩ := hd0
          intro done ci pi hkvs hci hbf hApi hHpF hinc hfold
          have hksplit : k ∉ done.map Prod.fst ∧ k ∉ l2.map Prod.fst := by
            have := hwf.1
            rw [hkvs] at this
            rw [List.map_append, List.map_cons] at this
            exact nodupKeys_split this
          have hget_ci : getValueFromPath ci π =
              .obj (mergeAtL done props π ++ (k, v) :: l2) := by
            rw [hci]
            exact get_updateSubtree_self hck _
          have hcki : chainKeys ci π = true := hci ▸ hckup _
          have hget_k : getValueFromPath ci (π ++ [k]) = v := by
            rw [getValueFromPath_append, hget_ci, getValueFromPath_obj_cons]
            rw [lookup_append_left (by rw [keys_mergeAtL]; exact hksplit.1)]
            rw [List.lookup_cons]
            simp [getValueFromPath]
          have hmem_kv : (k, v) ∈ kvs := by
            rw [hkvs]
            exact List.mem_append_right _ (List.mem_cons_self _ _)
          have hck_k : chainKeys ci (π ++ [k]) = true := by
            refine chainKeys_snoc hcki hget_ci ?_
            rw [lookup_append_left (by rw [keys_mergeAtL]; exact hksplit.1)]
            rw [List.lookup_cons]
            simp [Option.isSome]
          rw [List.map_cons, List.foldlM_cons] at hfold
          cases hstep : loadConfig fuel ci pi (π ++ [k]) with
          | error e =>
            rw [hstep] at hfold
            have herr : (Except.error e : Except String (JsVal × JsVal)) =
                .ok (c2, p2) := hfold
            exact absurd herr (by simp)
          | ok cp' =>
            obtain ⟨c', p'⟩ := cp'
            rw [hstep] at hfold
            have hfold2 : (l2.map Prod.fst).foldlM
                (fun cp key => loadConfig fuel cp.1 cp.2 (π ++ [key]))
                (c', p') = .ok (c2, p2) := hfold
            have hrec := ih ci pi (π ++ [k]) c' p' hstep hApi
              (by rw [hget_k]; exact wfNDL_mem hwf.2 hmem_kv) hck_k
              (fun hh => absurd hh (by simp))
            rw [hget_k] at hrec
            obtain ⟨hc', hb', hA', hfr'⟩ := hrec
            have hX : mergeAt v pi (π ++ [k]) = mergeAt v props (π ++ [k]) :=
              mergeAt_congr v (π ++ [k])
                (fun q hle => hHpF q k v (List.mem_cons_self _ _) hle)
            have hc'2 : c' = updateSubtree config π
                (.obj (mergeAtL (done ++ [(k, v)]) props π ++ l2)) := by
              rw [hc', hX]
              rw [updateSubtree_snoc hcki hget_ci k _]
              rw [hci, updateSubtree_absorb]
              rw [setKey_append_left (by rw [keys_mergeAtL]; exact hksplit.1)]
              rw [show setKey ((k, v) :: l2) k (mergeAt v props (π ++ [k])) =
                (k, mergeAt v props (π ++ [k])) :: l2 by simp [setKey]]
              rw [mergeAtL_append]
              rw [show mergeAtL [(k, v)] props π =
                [(k, mergeAt v props (π ++ [k]))] from rfl]
              rw [List.append_assoc, List.singleton_append]
            have hbf2 : backfillAtL (done ++ [(k, v)]) π props = .ok p' := by
              rw [backfillAtL_append, hbf]
              show backfillAtL [(k, v)] π pi = .ok p'
              rw [backfillAtL_cons, hb']
              rfl
            have hHpF2 : ∀ q kp vp, (kp, vp) ∈ l2 →
                pathLE (π ++ [kp]) q = true →
                getValueFromPath p' q = getValueFromPath props q := by
              intro q kp vp hm hle
              have hne : k ≠ kp := by
                intro hk
                exact hksplit.2 (hk ▸ List.mem_map.mpr ⟨(kp, vp), hm, hk ▸ rfl⟩)
              have hinc2 := pathLE_sib_ext_not hne hle
              rw [hfr' q hinc2.1 hinc2.2]
              exact hHpF q kp vp (List.mem_cons_of_mem _ hm) hle
            have hinc2 : ∀ q, pathLE π q = false → pathLE q π = false →
                getValueFromPath p' q = getValueFromPath props q := by
              intro q hq1 hq2
              rw [hfr' q (pathLE_extend_not k hq1) (pathLE_snoc_not k hq2 hq1)]
              exact hinc q hq1 hq2
            have := ihl (done ++ [(k, v)]) c' p'
              (by rw [hkvs, List.append_assoc, List.singleton_append])
              hc'2 hbf2 hA' hHpF2 hinc2 hfold2
            rwa [List.append_assoc, List.singleton_append] at this
      have hstart := inner kvs [] config props rfl
        (by
          rw [show mergeAtL [] props π = [] from rfl, List.nil_append]
          have := updateSubtree_self_id (t := config) (π := π) hck
          rw [hthing] at this
          rw [this])
        rfl hAp (fun _ _ _ hm _ => rfl) (fun _ _ _ => rfl) h
      rw [List.nil_append] at hstart
      rw [mergeAt_obj, backfillAt_obj]
      exact hstart
    | undef =>
      rw [loadConfig_succ_leaf (by rw [hthing]; rfl) (by rw [hthing]; rfl)] at h
      have hπ : π ≠ [] := by
        intro hh
        subst hh
        have := hroot rfl
        rw [hthing] at this
        simp [typeofObject] at this
      by_cases hc : isUndef (getValueFromPath props π) = true
      · rw [if_pos hc, hthing] at h
        cases hset : setValueFromPath props π .undef with
        | error e => rw [hset] at h; exact absurd h (by simp)
        | ok pr2 =>
          rw [hset] at h
          simp only [Except.ok.injEq, Prod.mk.injEq] at h
          obtain ⟨rfl, rfl⟩ := h
          refine ⟨?_, ?_, ?_, ?_⟩
          · rw [mergeAt_leaf (d := .undef) rfl (by simp), if_pos hc]
            have := updateSubtree_self_id (t := config) (π := π) hck
            rw [hthing] at this
            rw [this]
          · rw [backfillAt_leaf (d := .undef) rfl (by simp), if_pos hc, hset]
          · exact setValueFromPath_noArrays hAp (by rfl) hset
          · intro q hq1 hq2
            exact setValueFromPath_frame hAp hq2 hq1 hset
      · rw [if_neg hc] at h
        rw [setValueFromPath_chainKeys hck hπ _] at h
        simp only [Except.ok.injEq, Prod.mk.injEq] at h
        obtain ⟨rfl, rfl⟩ := h
        refine ⟨?_, ?_, hAp, fun q _ _ => rfl⟩
        · rw [mergeAt_leaf (d := .undef) rfl (by simp), if_neg hc]
        · rw [backfillAt_leaf (d := .undef) rfl (by simp), if_neg hc]
    | bool b =>
      rw [loadConfig_succ_leaf (by rw [hthing]; rfl) (by rw [hthing]; rfl)] at h
      have hπ : π ≠ [] := by
        intro hh
        subst hh
        have := hroot rfl
        rw [hthing] at this
        simp [typeofObject] at this
      by_cases hc : isUndef (getValueFromPath props π) = true
      · rw [if_pos hc, hthing] at h
        cases hset : setValueFromPath props π (.bool b) with
        | error e => rw [hset] at h; exact absurd h (by simp)
        | ok pr2 =>
          rw [hset] at h
          simp only [Except.ok.injEq, Prod.mk.injEq] at h
          obtain ⟨rfl, rfl⟩ := h
          refine ⟨?_, ?_, ?_, ?_⟩
          · rw [mergeAt_leaf (d := .bool b) rfl (by simp), if_pos hc]
            have := updateSubtree_self_id (t := config) (π := π) hck
            rw [hthing] at this
            rw [this]
          · rw [backfillAt_leaf (d := .bool b) rfl (by simp), if_pos hc, hset]
          · exact setValueFromPath_noArrays hAp (by rfl) hset
          · intro q hq1 hq2
            exact setValueFromPath_frame hAp hq2 hq1 hset
      · rw [if_neg hc] at h
        rw [setValueFromPath_chainKeys hck hπ _] at h
        simp only [Except.ok.injEq, Prod.mk.injEq] at h
        obtain ⟨rfl, rfl⟩ := h
        refine ⟨?_, ?_, hAp, fun q _ _ => rfl⟩
        · rw [mergeAt_leaf (d := .bool b) rfl (by simp), if_neg hc]
        · rw [backfillAt_leaf (d := .bool b) rfl (by simp), if_neg hc]
    | num n =>
      rw [loadConfig_succ_leaf (by rw [hthing]; rfl) (by rw [hthing]; rfl)] at h
      have hπ : π ≠ [] := by
        intro hh
        subst hh
        have := hroot rfl
        rw [hthing] at this
        simp [typeofObject] at this
      by_cases hc : isUndef (getValueFromPath props π) = true
      · rw [if_pos hc, hthing] at h
        cases hset : setValueFromPath props π (.num n) with
        | error e => rw [hset] at h; exact absurd h (by simp)
        | ok pr2 =>
          rw [hset] at h
          simp only [Except.ok.injEq, Prod.mk.injEq] at h
          obtain ⟨rfl, rfl⟩ := h
          refine ⟨?_, ?_, ?_, ?_⟩
          · rw [mergeAt_leaf (d := .num n) rfl (by simp), if_pos hc]
            have := updateSubtree_self_id (t := config) (π := π) hck
            rw [hthing] at this
            rw [this]
          · rw [backfillAt_leaf (d := .num n) rfl (by simp), if_pos hc, hset]
          · exact setValueFromPath_noArrays hAp (by rfl) hset
          · intro q hq1 hq2
            exact setValueFromPath_frame hAp hq2 hq1 hset
      · rw [if_neg hc] at h
        rw [setValueFromPath_chainKeys hck hπ _] at h
        simp only [Except.ok.injEq, Prod.mk.injEq] at h
        obtain ⟨rfl, rfl⟩ := h
        refine ⟨?_, ?_, hAp, fun q _ _ => rfl⟩
        · rw [mergeAt_leaf (d := .num n) rfl (by simp), if_neg hc]
        · rw [backfillAt_leaf (d := .num n) rfl (by simp), if_neg hc]
    | str s =>
      rw [loadConfig_succ_leaf (by rw [hthing]; rfl) (by rw [hthing]; rfl)] at h
      have hπ : π ≠ [] := by
        intro hh
        subst hh
        have := hroot rfl
        rw [hthing] at this
        simp [typeofObject] at this
      by_cases hc : isUndef (getValueFromPath props π) = true
      · rw [if_pos hc, hthing] at h
        cases hset : setValueFromPath props π (.str s) with
        | error e => rw [hset] at h; exact absurd h (by simp)
        | ok pr2 =>
          rw [hset] at h
          simp only [Except.ok.injEq, Prod.mk.injEq] at h
          obtain ⟨rfl, rfl⟩ := h
          refine ⟨?_, ?_, ?_, ?_⟩
          · rw [mergeAt_leaf (d := .str s) rfl (by simp), if_pos hc]
            have := updateSubtree_self_id (t := config) (π := π) hck
            rw [hthing] at this
            rw [this]
          · rw [backfillAt_leaf (d := .str s) rfl (by simp), if_pos hc, hset]
          · exact setValueFromPath_noArrays hAp (by rfl) hset
          · intro q hq1 hq2
            exact setValueFromPath_frame hAp hq2 hq1 hset
      · rw [if_neg hc] at h
        rw [setValueFromPath_chainKeys hck hπ _] at h
        simp only [Except.ok.injEq, Prod.mk.injEq] at h
        obtain ⟨rfl, rfl⟩ := h
        refine ⟨?_, ?_, hAp, fun q _ _ => rfl⟩
        · rw [mergeAt_leaf (d := .str s) rfl (by simp), if_neg hc]
        · rw [backfillAt_leaf (d := .str s) rfl (by simp), if_neg hc]

/-! ## Top-level corollaries and the claims -/

theorem typeofObject_of_isObjV {D : JsVal} (h : isObjV D = true) :
    typeofObject D = true := by
  cases D with
  | obj kvs => rfl
  | null => rfl
  | undef => exact absurd h (by simp [isObjV])
  | bool b => exact absurd h (by simp [isObjV])
  | num n => exact absurd h (by simp [isObjV])
  | str s => exact absurd h (by simp [isObjV])
  | arr es => exact absurd h (by simp [isObjV])

/-- A successful top-level `loadConfig` run computes exactly the
specification-level merge and backfill. -/
theorem loadConfig_top {fuel : Nat} {D P M P' : JsVal}
    (hD : isObjV D = true) (hw : wfND D = true) (hAP : noArrays P = true)
    (h : loadConfig fuel D P [] = .ok (M, P')) :
    M = mergeAt D P [] ∧ backfillAt D [] P = .ok P' ∧ noArrays P' = true := by
  have hs := loadConfig_spec fuel D P [] M P' h hAP hw rfl
    (fun _ => typeofObject_of_isObjV hD)
  exact ⟨hs.1, hs.2.1, hs.2.2.1⟩

/-- A successful `init` run is a successful `loadConfig` run on the
parsed file contents, followed by the final write. -/
theorem init_ok {fuel : Nat} {D M : JsVal} {f f2 : Option FileData} {w : Nat}
    (h : init fuel D f = (.ok M, f2, w)) :
    ∃ P2, loadConfig fuel D (readProps f) [] = .ok (M, P2) ∧
      f2 = some (.jsonOf P2) := by
  cases f with
  | none =>
    cases hLC : loadConfig fuel D (.obj []) [] with
    | error e =>
      rw [show init fuel D none = (.error e, some .emptyFile, 1) from by
        simp [init, parseFile, hLC]] at h
      simp at h
    | ok Mp =>
      obtain ⟨M0, P0⟩ := Mp
      rw [show init fuel D none = (.ok M0, some (.jsonOf P0), 2) from by
        simp [init, parseFile, hLC]] at h
      simp only [Prod.mk.injEq, Except.ok.injEq] at h
      obtain ⟨rfl, rfl, _⟩ := h
      exact ⟨P0, hLC, rfl⟩
  | some c =>
    cases hLC : loadConfig fuel D (parseFile c) [] with
    | error e =>
      rw [show init fuel D (some c) = (.error e, some c, 0) from by
        simp [init, hLC]] at h
      simp at h
    | ok Mp =>
      obtain ⟨M0, P0⟩ := Mp
      rw [show init fuel D (some c) = (.ok M0, some (.jsonOf P0), 1) from by
        simp [init, hLC]] at h
      simp only [Prod.mk.injEq, Except.ok.injEq] at h
      obtain ⟨rfl, rfl, _⟩ := h
      exact ⟨P0, hLC, rfl⟩

/-- C1, counterexample: the claim also covers leaf paths whose default
value is `null` (a leaf per the glossary: any non-mapping, non-sequence
value), but `typeof null === 'object'` makes the walk treat a `null`
default like an empty mapping, so the persisted value at that path is
ignored: with D = `{a: null}` and P = `{a: 0}`, the merged value at
`["a"]` stays `null` instead of P's `0`, and the run succeeds. -/
theorem claim_C1_counterexample :
    loadConfig 5 (.obj [("a", .null)]) (.obj [("a", .num 0)]) [] =
      .ok (.obj [("a", .null)], .obj [("a", .num 0)]) ∧
    getValueFromPath (.obj [("a", .null)]) ["a"] = .null ∧
    getValueFromPath (.obj [("a", .num 0)]) ["a"] = .num 0 ∧
    JsVal.null ≠ .num 0 := by
  refine ⟨rfl, rfl, rfl, by simp⟩

/-- C1 (amended): for every leaf path of the default structure whose
default value is not `null` (the walk leaves of `dLeaves`, which skip
`null` defaults because of the `typeof null === 'object'` quirk) that is
also present in the persisted structure as a non-mapping value —
including `false`, `0`, the empty string and `null` — a successful
reconciliation gives the merged configuration the persisted value at
that path. -/
theorem claim_C1 : ∀ (fuel : Nat) (D P M P2 : JsVal) (p : List String)
    (dv v : JsVal),
    isObjV D = true → wfND D = true → noArrays D = true →
    noArrays P = true →
    loadConfig fuel D P [] = .ok (M, P2) →
    (p, dv) ∈ dLeaves D →
    getValueFromPath P p = v → isUndef v = false → isObjV v = false →
    getValueFromPath M p = v := by
  intro fuel D P M P2 p dv v hD hw _ hAP h hm hv hvu _
  obtain ⟨hM, _, _⟩ := loadConfig_top hD hw hAP h
  rw [hM, get_mergeAt D hw hm, List.nil_append, hv, if_neg (by rw [hvu]; simp)]

theorem claim_C1_witness :
    getValueFromPath (.obj [("a", .bool false)]) ["a"] = .bool false :=
  claim_C1 5 (.obj [("a", .num 1)]) (.obj [("a", .bool false)])
    (.obj [("a", .bool false)]) (.obj [("a", .bool false)]) ["a"]
    (.num 1) (.bool false) rfl rfl rfl rfl rfl
    (List.mem_singleton.mpr rfl) rfl rfl rfl

/-- C2, counterexample: a `null`-valued default leaf (the claim
explicitly includes `null` among leaf values) is never written to the
persisted structure: with D = `{debug: null}` and empty persisted
structure, reconciliation succeeds but leaves the persisted structure
empty — it does not contain D's value at `["debug"]`. -/
theorem claim_C2_counterexample :
    loadConfig 5 (.obj [("debug", .null)]) (.obj []) [] =
      .ok (.obj [("debug", .null)], .obj []) ∧
    getValueFromPath (.obj []) ["debug"] = .undef := by
  exact ⟨rfl, rfl⟩

/-- C2 (amended): for every walk-leaf path of the default structure
(leaf values being booleans, numbers, strings — but not `null`, which
the walk skips) that is absent from the persisted structure, a
successful reconciliation keeps the default value in the merged
configuration and writes it into the persisted structure at that path,
vivifying intermediate mappings. -/
theorem claim_C2 : ∀ (fuel : Nat) (D P M P2 : JsVal) (p : List String)
    (dv : JsVal),
    isObjV D = true → wfND D = true → noArrays D = true →
    noArrays P = true →
    loadConfig fuel D P [] = .ok (M, P2) →
    (p, dv) ∈ dLeaves D →
    getValueFromPath P p = .undef →
    getValueFromPath M p = dv ∧ getValueFromPath P2 p = dv := by
  intro fuel D P M P2 p dv hD hw hAD hAP h hm hv
  obtain ⟨hM, hbf, _⟩ := loadConfig_top hD hw hAP h
  constructor
  · rw [hM, get_mergeAt D hw hm, List.nil_append, hv]
    simp [isUndef]
  · have := backfill_get D hw hAD hAP (Or.inl hD) hbf hm
    rw [List.nil_append, hv] at this
    simp only [isUndef, if_true] at this
    exact this

theorem claim_C2_witness :
    getValueFromPath (.obj [("a", .num 1)]) ["a"] = .num 1 ∧
    getValueFromPath (.obj [("a", .num 1)]) ["a"] = .num 1 :=
  claim_C2 5 (.obj [("a", .num 1)]) (.obj []) (.obj [("a", .num 1)])
    (.obj [("a", .num 1)]) ["a"] (.num 1) rfl rfl rfl rfl rfl
    (List.mem_singleton.mpr rfl) rfl

/-- C3, counterexample: when the storage location does not previously
exist, `init` first creates an empty placeholder file — a write —
before the walk runs, so an array in the defaults does NOT leave
storage untouched in that case: with D = `{tags: ["a","b"]}` and no
existing file, the run fails with the unsupported-shape error yet the
final file state is the empty placeholder and one write occurred. -/
theorem claim_C3_counterexample :
    init 10 (.obj [("tags", .arr [.str "a", .str "b"])]) none =
      (.error "Arrays not supported in configuration",
        some .emptyFile, 1) := by
  rfl

/-- C3 (amended): when reconciliation fails (in particular on the
unsupported-shape error), the persisted file is never rewritten with
reconciled content: if the file already existed its contents are left
untouched with zero writes, while if it did not exist the only write is
the empty placeholder created before the walk. -/
theorem claim_C3 : ∀ (fuel : Nat) (D : JsVal) (f : Option FileData)
    (e : String) (f2 : Option FileData) (w : Nat),
    init fuel D f = (.error e, f2, w) →
    (f = none → f2 = some .emptyFile ∧ w = 1) ∧
    (∀ c, f = some c → f2 = some c ∧ w = 0) := by
  intro fuel D f e f2 w h
  constructor
  · intro hf
    subst hf
    cases hLC : loadConfig fuel D (.obj []) [] with
    | error e2 =>
      rw [show init fuel D none = (.error e2, some .emptyFile, 1) from by
        simp [init, parseFile, hLC]] at h
      simp only [Prod.mk.injEq] at h
      exact ⟨h.2.1.symm, h.2.2.symm⟩
    | ok Mp =>
      obtain ⟨M0, P0⟩ := Mp
      rw [show init fuel D none = (.ok M0, some (.jsonOf P0), 2) from by
        simp [init, parseFile, hLC]] at h
      simp at h
  · intro c hf
    subst hf
    cases hLC : loadConfig fuel D (parseFile c) [] with
    | error e2 =>
      rw [show init fuel D (some c) = (.error e2, some c, 0) from by
        simp [init, hLC]] at h
      simp only [Prod.mk.injEq] at h
      exact ⟨h.2.1.symm, h.2.2.symm⟩
    | ok Mp =>
      obtain ⟨M0, P0⟩ := Mp
      rw [show init fuel D (some c) = (.ok M0, some (.jsonOf P0), 1) from by
        simp [init, hLC]] at h
      simp at h

theorem claim_C3_witness :
    init 10 (.obj [("tags", .arr [.str "a", .str "b"])])
        (some (.jsonOf (.obj [("port", .num 1)]))) =
      (.error "Arrays not supported in configuration",
        some (.jsonOf (.obj [("port", .num 1)])), 0) ∧
    (some (FileData.jsonOf (.obj [("port", .num 1)])) =
        some (.jsonOf (.obj [("port", .num 1)])) ∧ 0 = 0) :=
  ⟨rfl,
    (claim_C3 10 (.obj [("tags", .arr [.str "a", .str "b"])])
      (some (.jsonOf (.obj [("port", .num 1)])))
      "Arrays not supported in configuration"
      (some (.jsonOf (.obj [("port", .num 1)]))) 0 rfl).2
      (.jsonOf (.obj [("port", .num 1)])) rfl⟩

/-- C4 (refuted): an array value in the persisted structure is NOT a
hard error — the `Array.isArray` check in the walk only ever sees
values read from the default structure, so a persisted array at a
default leaf path is silently accepted as that leaf's value: with
D = `{a: 1}` and P = `{a: [2]}`, reconciliation succeeds and copies
the array into the merged configuration. -/
theorem claim_C4_counterexample :
    loadConfig 5 (.obj [("a", .num 1)]) (.obj [("a", .arr [.num 2])]) [] =
      .ok (.obj [("a", .arr [.num 2])], .obj [("a", .arr [.num 2])]) ∧
    isArrV (getValueFromPath (.obj [("a", .arr [.num 2])]) ["a"]) = true := by
  exact ⟨rfl, rfl⟩

/-- C4 (amended): arrays are only detected on the default side of the
walk; a persisted array at a default leaf path is silently accepted as
that leaf's value for every array content: D = `{a: 1}` against
P = `{a: es}` succeeds and copies the array into the merged
configuration, for arbitrary array contents `es` and any sufficient
fuel. -/
theorem claim_C4 : ∀ (fuel : Nat) (es : List JsVal),
    loadConfig (fuel + 2) (.obj [("a", .num 1)]) (.obj [("a", .arr es)]) [] =
      .ok (.obj [("a", .arr es)], .obj [("a", .arr es)]) ∧
    isArrV (.arr es) = true := by
  intro fuel es
  exact ⟨rfl, rfl⟩

/-- C5, counterexample: the merged structure's key-path set can differ
from D's: with D = `{a: 1}` and P = `{a: {b: 2}}` (no arrays anywhere),
reconciliation succeeds and the merged structure gains the path
`["a","b"]`, absent from D. -/
theorem claim_C5_counterexample :
    loadConfig 5 (.obj [("a", .num 1)]) (.obj [("a", .obj [("b", .num 2)])])
        [] =
      .ok (.obj [("a", .obj [("b", .num 2)])],
        .obj [("a", .obj [("b", .num 2)])]) ∧
    noArrays (.obj [("a", .num 1)]) = true ∧
    noArrays (.obj [("a", .obj [("b", .num 2)])]) = true ∧
    nodePaths (.obj [("a", .num 1)]) = [[], ["a"]] ∧
    nodePaths (.obj [("a", .obj [("b", .num 2)])]) =
      [[], ["a"], ["a", "b"]] := by
  exact ⟨rfl, rfl, rfl, rfl, rfl⟩

/-- C5 (amended): the key-path set of the merged structure equals D's
key-path set provided the persisted values picked up at D's walk-leaf
paths are themselves non-mappings; a persisted mapping stored at a
default leaf path is grafted wholesale and extends the path set. -/
theorem claim_C5 : ∀ (fuel : Nat) (D P M P2 : JsVal),
    isObjV D = true → wfND D = true → noArrays D = true →
    noArrays P = true →
    loadConfig fuel D P [] = .ok (M, P2) →
    (∀ p dv, (p, dv) ∈ dLeaves D →
      isObjV (getValueFromPath P p) = false) →
    nodePaths M = nodePaths D := by
  intro fuel D P M P2 hD hw _ hAP h hleaf
  obtain ⟨hM, _, _⟩ := loadConfig_top hD hw hAP h
  rw [hM]
  exact nodePaths_mergeAt D (fun ρ dv hm => by
    rw [List.nil_append]
    exact hleaf ρ dv hm)

theorem claim_C5_witness :
    nodePaths (.obj [("a", .num 7)]) = nodePaths (.obj [("a", .num 1)]) :=
  claim_C5 5 (.obj [("a", .num 1)]) (.obj [("a", .num 7)])
    (.obj [("a", .num 7)]) (.obj [("a", .num 7)]) rfl rfl rfl rfl rfl
    (by
      intro p dv hm
      have h2 := List.mem_singleton.mp
        (show (p, dv) ∈ [(["a"], JsVal.num 1)] from hm)
      injection h2 with e1 e2
      subst e1
      rfl)

/-- C6 (confirmed): reconciliation is idempotent.  If a first `init`
run on defaults D (well-formed, array-free, `undefined`-free, with
array-free file contents) succeeds and writes the persisted structure
P1 to the file, then a second run taking that file as input produces
the same merged configuration and writes byte-identical content: the
serialized form of the same value P1. -/
theorem claim_C6 : ∀ (fuel1 fuel2 : Nat) (D : JsVal)
    (f : Option FileData) (M1 P1 : JsVal) (w1 : Nat) (M2 : JsVal)
    (f2 : Option FileData) (w2 : Nat),
    isObjV D = true → wfND D = true → noArrays D = true →
    noUndef D = true → noArrays (readProps f) = true →
    init fuel1 D f = (.ok M1, some (.jsonOf P1), w1) →
    init fuel2 D (some (.jsonOf P1)) = (.ok M2, f2, w2) →
    M2 = M1 ∧ f2 = some (.jsonOf P1) := by
  intro fuel1 fuel2 D f M1 P1 w1 M2 f2 w2 hD hw hAD hnU hAP h1 h2
  obtain ⟨P1x, hLC1, hf1⟩ := init_ok h1
  have hP1x : P1x = P1 := by
    injection hf1 with hf1b
    injection hf1b with e
    exact e.symm
  rw [hP1x] at hLC1
  obtain ⟨hM1, hbf1, hAP1⟩ := loadConfig_top hD hw hAP hLC1
  obtain ⟨P2x, hLC2, hf2x⟩ := init_ok h2
  have hread : readProps (some (.jsonOf P1)) = P1 := rfl
  rw [hread] at hLC2
  obtain ⟨hM2, hbf2, _⟩ := loadConfig_top hD hw hAP1 hLC2
  have hfound : ∀ ρ dv, (ρ, dv) ∈ dLeaves D →
      isUndef (getValueFromPath P1 ([] ++ ρ)) = false := by
    intro ρ dv hm
    have hg := backfill_get D hw hAD hAP (Or.inl hD) hbf1 hm
    rw [hg]
    cases hc : isUndef (getValueFromPath (readProps f) ([] ++ ρ)) with
    | true =>
      rw [if_pos rfl]
      exact dLeaves_noUndef D hnU ρ dv hm
    | false =>
      rw [if_neg (by simp)]
      exact hc
  have hid : backfillAt D [] P1 = .ok P1 := backfill_found_id D hfound
  have hP2x : P2x = P1 := by
    rw [hid] at hbf2
    injection hbf2 with e
    exact e.symm
  constructor
  · rw [hM2, hM1]
    exact mergeAt_after_backfill D hw hAD hAP (Or.inl hD) hbf1
  · rw [hf2x, hP2x]

theorem claim_C6_witness :
    JsVal.obj [("port", .num 1234)] = .obj [("port", .num 1234)] ∧
    some (FileData.jsonOf (.obj [("port", .num 1234)])) =
      some (.jsonOf (.obj [("port", .num 1234)])) :=
  claim_C6 5 5 (.obj [("port", .num 1234)]) none
    (.obj [("port", .num 1234)]) (.obj [("port", .num 1234)]) 2
    (.obj [("port", .num 1234)])
    (some (.jsonOf (.obj [("port", .num 1234)]))) 1
    rfl rfl rfl rfl rfl rfl rfl

/-- C7, counterexample: an existing falsy value at an intermediate key
IS replaced during descent — the vivification test `if (!thing[next!])`
tests truthiness, not absence: with the value `0` stored at `"a"`,
setting at path `["a","b"]` discards the `0` and replaces it with a
fresh mapping. -/
theorem claim_C7_counterexample :
    List.lookup "a" [("a", JsVal.num 0)] = some (.num 0) ∧
    setValueFromPath (.obj [("a", .num 0)]) ["a", "b"] (.num 1) =
      .ok (.obj [("a", .obj [("b", .num 1)])]) := by
  exact ⟨rfl, rfl⟩

/-- C7 (amended): the set operation is a no-op on the empty path;
with exactly one remaining key it assigns at that key (creating or
overwriting); with more than one remaining key it descends into the
stored value when that value is truthy, and otherwise — when the key is
absent OR holds any falsy value (`false`, `0`, the empty string,
`null`) — replaces it with a fresh empty mapping before descending. -/
theorem claim_C7 :
    (∀ (t v : JsVal), setValueFromPath t [] v = .ok t) ∧
    (∀ (kvs : List (String × JsVal)) (k : String) (v : JsVal),
      setValueFromPath (.obj kvs) [k] v = .ok (.obj (setKey kvs k v))) ∧
    (∀ (kvs : List (String × JsVal)) (k k2 : String) (ρ : List String)
      (v w : JsVal), List.lookup k kvs = some w → truthy w = true →
      setValueFromPath (.obj kvs) (k :: k2 :: ρ) v =
        (setValueFromPath w (k2 :: ρ) v).map
          (fun w2 => .obj (setKey kvs k w2))) ∧
    (∀ (kvs : List (String × JsVal)) (k k2 : String) (ρ : List String)
      (v : JsVal), truthy ((List.lookup k kvs).getD .undef) = false →
      setValueFromPath (.obj kvs) (k :: k2 :: ρ) v =
        (setValueFromPath (.obj []) (k2 :: ρ) v).map
          (fun w2 => .obj (setKey kvs k w2))) := by
  refine ⟨fun t v => rfl, fun kvs k v => rfl, ?_, ?_⟩
  · intro kvs k k2 ρ v w hl htr
    simp only [setValueFromPath_cons, propGetE_obj, hl, Option.getD_some]
    rw [if_pos htr]
    cases hrec : setValueFromPath w (k2 :: ρ) v with
    | error e => simp [Except.map]
    | ok child2 => simp [Except.map, propSet]
  · intro kvs k k2 ρ v htr
    simp only [setValueFromPath_cons, propGetE_obj]
    rw [if_neg (by rw [htr]; simp)]
    simp only [propSet]
    cases hrec : setValueFromPath (.obj []) (k2 :: ρ) v with
    | error e => simp [Except.map]
    | ok child2 => simp [Except.map, setKey_absorb]

theorem claim_C7_witness :
    List.lookup "a" [("a", JsVal.obj [("x", JsVal.num 5)])] =
      some (.obj [("x", .num 5)]) ∧
    truthy (.obj [("x", .num 5)]) = true ∧
    setValueFromPath (.obj [("a", .obj [("x", .num 5)])]) ["a", "b"]
        (.num 1) =
      (setValueFromPath (.obj [("x", .num 5)]) ["b"] (.num 1)).map
        (fun w2 => .obj (setKey [("a", JsVal.obj [("x", JsVal.num 5)])]
          "a" w2)) :=
  ⟨rfl, rfl, claim_C7.2.2.1 [("a", .obj [("x", .num 5)])] "a" "b" []
    (.num 1) (.obj [("x", .num 5)]) rfl rfl⟩

/-- C8 (confirmed): the get operation returns the structure itself on
the empty path (at any depth, including sub-mappings); descending
through an absent key yields `undefined` for the whole remaining path —
the distinguished "not found" result; a stored leaf found at the full
path is returned as-is; and `null`, `false` and `0` are all distinct
from `undefined`, so stored falsy leaves are distinguishable from "not
found". -/
theorem claim_C8 :
    (∀ (t : JsVal), getValueFromPath t [] = t) ∧
    (∀ (kvs : List (String × JsVal)) (k : String) (ρ : List String),
      List.lookup k kvs = none →
      getValueFromPath (.obj kvs) (k :: ρ) = .undef) ∧
    (∀ (kvs : List (String × JsVal)) (k : String) (v : JsVal),
      List.lookup k kvs = some v →
      getValueFromPath (.obj kvs) [k] = v) ∧
    (JsVal.null ≠ .undef ∧ JsVal.bool false ≠ .undef ∧
      JsVal.num 0 ≠ .undef) := by
  refine ⟨fun t => rfl, ?_, ?_, by simp, by simp, by simp⟩
  · intro kvs k ρ hl
    rw [getValueFromPath_obj_cons, hl]
    exact getValueFromPath_undef ρ
  · intro kvs k v hl
    rw [getValueFromPath_obj_cons, hl]
    rfl

theorem claim_C8_witness :
    List.lookup "x" [("a", JsVal.num 1)] = none ∧
    getValueFromPath (.obj [("a", .num 1)]) ["x", "y"] = .undef ∧
    List.lookup "a" [("a", JsVal.num 1)] = some (.num 1) ∧
    getValueFromPath (.obj [("a", .num 1)]) ["a"] = .num 1 :=
  ⟨rfl, claim_C8.2.1 [("a", .num 1)] "x" ["y"] rfl, rfl,
    claim_C8.2.2.1 [("a", .num 1)] "a" (.num 1) rfl⟩

/-- C9 (refuted — the write is unconditional): `init` rewrites the file
after every successful walk, even when reconciliation added nothing:
starting from a file that already contains every default, the run
succeeds, the persisted value is unchanged, and yet exactly one write
is performed.  (The code's own comment, "Only persist if we've change
the underlying file", describes the intended conditional behavior; the
`writeFileSync` below it is unconditional.) -/
theorem claim_C9 :
    init 5 (.obj [("a", .num 1)]) (some (.jsonOf (.obj [("a", .num 1)]))) =
      (.ok (.obj [("a", .num 1)]),
        some (.jsonOf (.obj [("a", .num 1)])), 1) := by
  rfl

/-- C10 (confirmed): reconciliation mutates the caller's default
object in place.  In the `config.ts` variant the constructor stores the
caller's reference itself, so after reconciliation the caller's object
(heap cell 0) holds the persisted override `7`.  In the `part_000`
variant the constructor shallow-copies the top level into a fresh cell
4, so the caller's top-level leaf `"t"` keeps its value `1` while the
instance's copy gets the persisted `9` — but the nested sub-object is
still the shared cell 1, and reconciliation overwrites its leaf `"a"`
with the persisted `7`, visible through the caller's object. -/
theorem claim_C10 :
    constructorA (.ref 0) = .ref 0 ∧
    loadConfigH 5 [(0, [("a", HVal.num 1)]), (2, [("a", HVal.num 7)])]
        (constructorA (.ref 0)) (.ref 2) [] =
      .ok [(0, [("a", HVal.num 7)]), (2, [("a", HVal.num 7)])] ∧
    constructorB
        [(0, [("n", HVal.ref 1), ("t", HVal.num 1)]),
         (1, [("a", HVal.num 5)]),
         (2, [("n", HVal.ref 3), ("t", HVal.num 9)]),
         (3, [("a", HVal.num 7)])] (.ref 0) =
      ([(0, [("n", HVal.ref 1), ("t", HVal.num 1)]),
        (1, [("a", HVal.num 5)]),
        (2, [("n", HVal.ref 3), ("t", HVal.num 9)]),
        (3, [("a", HVal.num 7)]),
        (4, [("n", HVal.ref 1), ("t", HVal.num 1)])], .ref 4) ∧
    loadConfigH 6
        [(0, [("n", HVal.ref 1), ("t", HVal.num 1)]),
         (1, [("a", HVal.num 5)]),
         (2, [("n", HVal.ref 3), ("t", HVal.num 9)]),
         (3, [("a", HVal.num 7)]),
         (4, [("n", HVal.ref 1), ("t", HVal.num 1)])] (.ref 4) (.ref 2) [] =
      .ok [(0, [("n", HVal.ref 1), ("t", HVal.num 1)]),
           (1, [("a", HVal.num 7)]),
           (2, [("n", HVal.ref 3), ("t", HVal.num 9)]),
           (3, [("a", HVal.num 7)]),
           (4, [("n", HVal.ref 1), ("t", HVal.num 9)])] := by
  exact ⟨rfl, rfl, rfl, rfl⟩
